import Mathlib

/-!
# When Close Enough Is Close Enough: a verification development

Shallow embedding of `main.cpp`: the tokenizer `exprToTokens`, the infix to
postfix conversion `shuntingYard`, the `Fraction` and `Lambda` value types with
their operators, and the two evaluation passes of `isEqual`.

Conventions of the embedding.

* `std::vector` used as a stack is a `List` whose head is `back()`.
* `std::deque` used as the output queue is a `List` in queue order;
  `push_back` appends at the end.
* `unsigned long long` arithmetic is arithmetic on `Nat` reduced modulo `2^64`.
* `long long` fields are exact integers (signed overflow has no defined result
  in C++).
* `back()` / `pop_back()` on an empty vector has no defined result in C++; the
  embedding reports it as a distinguished outcome instead of inventing one.
* The arbitrary-precision reals of `mpreal.h` and the `double` function `pow`
  are outside `main.cpp`; the embedding takes them as parameters. The working
  precision set on line 409 only changes how the `mpreal` operations round and
  belongs to that parameter.
* Input text is ASCII, one `Char` for each `char` of the `std::string`.
-/

namespace CloseEnough

/-! ## Tokens -/

/-- Mirror of `Token::Type`. -/
inductive TokenType where
  | Unknown
  | Number
  | Operator
  | LeftParen
  | RightParen
deriving DecidableEq, Repr

/-- Mirror of `class Token`; the constructor defaults are `prec = -1`, `ra = false`. -/
structure Token where
  type : TokenType
  str : String
  precedence : Int := -1
  rightAssociative : Bool := false
deriving DecidableEq, Repr

/-! ## Tokenizer (`exprToTokens`, lines 208-244) -/

/-- The C function `isblank` in the "C" locale: space and horizontal tab. -/
def isblank (c : Char) : Bool := c = ' ' || c = '\t'

/-- The C function `isdigit`: the ten decimal digits. -/
def isdigit (c : Char) : Bool := decide ('0' ≤ c) && decide (c ≤ '9')

/-- The inner loop `while (isdigit(*p)) ++p;`: splits off the maximal run of
digits in front of the remaining characters. -/
def scanDigits : List Char → List Char × List Char
  | [] => ([], [])
  | c :: cs =>
    if isdigit c then
      let r := scanDigits cs
      (c :: r.1, r.2)
    else ([], c :: cs)

/-- The `switch (*p)` of the non-digit branch: the token for a single character. -/
def charToken (c : Char) : Token :=
  let s := String.singleton c
  if c = '(' then { type := .LeftParen, str := s, precedence := -1, rightAssociative := false }
  else if c = ')' then { type := .RightParen, str := s, precedence := -1, rightAssociative := false }
  else if c = '^' then { type := .Operator, str := s, precedence := 4, rightAssociative := true }
  else if c = '*' then { type := .Operator, str := s, precedence := 3, rightAssociative := false }
  else if c = '/' then { type := .Operator, str := s, precedence := 3, rightAssociative := false }
  else if c = '+' then { type := .Operator, str := s, precedence := 2, rightAssociative := false }
  else if c = '-' then { type := .Operator, str := s, precedence := 2, rightAssociative := false }
  else { type := .Unknown, str := s, precedence := -1, rightAssociative := false }

/-- The token pushed for a run of digits: `Token{ Token::Type::Number, s }`. -/
def numberToken (ds : List Char) : Token :=
  { type := .Number, str := String.mk ds, precedence := -1, rightAssociative := false }

/-- The `for` loop of `exprToTokens` over the characters still to be read. Each
round consumes at least one character, so `fuel` equal to the number of
characters is always enough. -/
def tokenLoop : Nat → List Char → List Token
  | 0, _ => []
  | _ + 1, [] => []
  | fuel + 1, c :: cs =>
    if isblank c then tokenLoop fuel cs
    else if isdigit c then
      let r := scanDigits (c :: cs)
      numberToken r.1 :: tokenLoop fuel r.2
    else charToken c :: tokenLoop fuel cs

/-- The characters seen through `expr.c_str()`: the loop condition `*p` stops
at the first NUL character. -/
def cString (expr : String) : List Char :=
  expr.data.takeWhile (fun c => c ≠ Char.ofNat 0)

/-- Embedding of `exprToTokens`. -/
def exprToTokens (expr : String) : List Token :=
  tokenLoop (cString expr).length (cString expr)

/-! ## Shunting-yard (`shuntingYard`, lines 247-351) -/

/-- What a call of `shuntingYard` does. The three reported errors print a
message and return the empty deque `{}`; `popEmpty` is `stack.pop_back()`
executed on an empty vector (line 317), which has no defined result. -/
inductive ShuntResult where
  | queue (q : List Token)
  | rightParenError (text : String)
  | tokenError (text : String)
  | mismatchedParentheses
  | popEmpty
deriving DecidableEq, Repr

/-- The test of lines 274-277 deciding whether `o2` leaves the stack before
`o1` is pushed. -/
def popsBefore (o1 o2 : Token) : Bool :=
  (!o1.rightAssociative && decide (o1.precedence ≤ o2.precedence))
    || (o1.rightAssociative && decide (o1.precedence < o2.precedence))

/-- The `while (!stack.empty())` loop of the `Operator` case (lines 266-288):
returns the stack and the queue when the loop is left. -/
def popOperators (o1 : Token) : List Token → List Token → List Token × List Token
  | [], queue => ([], queue)
  | o2 :: stack, queue =>
    if popsBefore o1 o2 then popOperators o1 stack (queue ++ [o2])
    else (o2 :: stack, queue)

/-- The `while` loop of the `RightParen` case (lines 307-313): returns the
stack, the queue and the flag `match` when the loop is left. -/
def popToLeftParen : List Token → List Token → Bool → List Token × List Token × Bool
  | [], queue, m => ([], queue, m)
  | t :: stack, queue, m =>
    if t.type ≠ TokenType.LeftParen then popToLeftParen stack (queue ++ [t]) true
    else (t :: stack, queue, m)

/-- The final `while (!stack.empty())` loop (lines 336-347). -/
def drain : List Token → List Token → ShuntResult
  | [], queue => .queue queue
  | t :: stack, queue =>
    if t.type = TokenType.LeftParen then .mismatchedParentheses
    else drain stack (queue ++ [t])

/-- The `for (auto token : tokens)` loop followed by the final drain, from a
given queue and stack. -/
def shuntLoop : List Token → List Token → List Token → ShuntResult
  | [], queue, stack => drain stack queue
  | token :: rest, queue, stack =>
    match token.type with
    | .Number => shuntLoop rest (queue ++ [token]) stack
    | .Operator =>
      let r := popOperators token stack queue
      shuntLoop rest r.2 (token :: r.1)
    | .LeftParen => shuntLoop rest queue (token :: stack)
    | .RightParen =>
      let r := popToLeftParen stack queue false
      match r.1 with
      | [] => .popEmpty
      | _ :: stack2 =>
        if !r.2.2 && stack2.isEmpty then .rightParenError token.str
        else shuntLoop rest r.2.1 stack2
    | .Unknown => .tokenError token.str

/-- Embedding of `shuntingYard`. -/
def shuntingYard (tokens : List Token) : ShuntResult :=
  shuntLoop tokens [] []

/-- The deque a caller of `shuntingYard` receives: the postfix queue, or `{}`
after a reported error; nothing when the call had no defined result. -/
def ShuntResult.returned : ShuntResult → Option (List Token)
  | .queue q => some q
  | .rightParenError _ => some []
  | .tokenError _ => some []
  | .mismatchedParentheses => some []
  | .popEmpty => none

/-! ## Failures of the evaluation -/

/-- Ways in which a run of `isEqual` ends without returning a boolean. -/
inductive Failure where
  /-- Reached by `Fraction(n, 0)`: prints "Denominator may not be 0." and calls `exit(0)`. -/
  | denominatorZero
  /-- Reached in Pass A, inner `default`: prints "Operator error: " and calls `exit(0)`. -/
  | operatorError (text : String)
  /-- Reached in Pass A, outer `default`: prints "Token error." and calls `exit(0)`. -/
  | tokenError
  /-- Thrown by `std::stoi` (no digits to convert, or a value above `INT_MAX`). -/
  | stoiThrows
  /-- Call of `back()` or `pop_back()` on an empty vector: no defined result. -/
  | emptyBack
  /-- The `gcd` loop did not finish within its rounds (never happens on the
  positive arguments the constructor passes, see `gcdLoop_fuel`). -/
  | gcdOutOfFuel
deriving DecidableEq, Repr

/-- Result of a computation that may end in a `Failure`. -/
abbrev Outcome (α : Type) := Except Failure α

/-! ## `Fraction` (lines 20-128) -/

/-- Mirror of `class Fraction`: two `long long` fields. -/
structure Fraction where
  numerator : Int
  denominator : Int
deriving DecidableEq, Repr

/-- The loop of `Fraction::gcd` (lines 26-34), with fuel for the number of
rounds still allowed. -/
def gcdLoop : Nat → Int → Int → Option Int
  | 0, a, b => if a = b then some a else none
  | fuel + 1, a, b =>
    if a = b then some a
    else if a > b then gcdLoop fuel (a - b) b
    else gcdLoop fuel a (b - a)

/-- Embedding of `Fraction::gcd(a, b)`, called with two positive arguments: the
loop is given `a + b` rounds, which is enough for it to finish then (see
`gcdLoop_fuel`); `none` stands for a loop that is still running after them. -/
def Fraction.gcd (a b : Int) : Option Int := gcdLoop (a.toNat + b.toNat) a b

/-- Embedding of `Fraction()` : the value `1/1`. -/
def Fraction.one : Fraction := { numerator := 1, denominator := 1 }

/-- Embedding of `Fraction(int n)` : the value `n/1`, stored as given. -/
def Fraction.ofInt (n : Int) : Fraction := { numerator := n, denominator := 1 }

/-- Embedding of `Fraction(long long n, long long d)` (lines 50-74). -/
def Fraction.make (n d : Int) : Outcome Fraction :=
  if d = 0 then .error .denominatorZero
  else if n = 0 then .ok { numerator := 0, denominator := 1 }
  else
    let sign1 : Int := if n < 0 then -1 else 1
    let n1 : Int := if n < 0 then n * -1 else n
    let sign2 : Int := if d < 0 then sign1 * -1 else sign1
    let d1 : Int := if d < 0 then d * -1 else d
    match Fraction.gcd n1 d1 with
    | none => .error .gcdOutOfFuel
    | some tmp => .ok { numerator := Int.tdiv n1 tmp * sign2, denominator := Int.tdiv d1 tmp }

/-- Embedding of `operator+(Fraction, Fraction)`. -/
def Fraction.add (lhs rhs : Fraction) : Outcome Fraction :=
  Fraction.make (lhs.numerator * rhs.denominator + rhs.numerator * lhs.denominator)
    (lhs.denominator * rhs.denominator)

/-- Embedding of `operator-(Fraction, Fraction)`. -/
def Fraction.sub (lhs rhs : Fraction) : Outcome Fraction :=
  Fraction.make (lhs.numerator * rhs.denominator - rhs.numerator * lhs.denominator)
    (lhs.denominator * rhs.denominator)

/-- Embedding of `operator*(Fraction, Fraction)`. -/
def Fraction.mul (lhs rhs : Fraction) : Outcome Fraction :=
  Fraction.make (lhs.numerator * rhs.numerator) (lhs.denominator * rhs.denominator)

/-- Embedding of `operator/(Fraction, Fraction)`. -/
def Fraction.div (lhs rhs : Fraction) : Outcome Fraction :=
  Fraction.make (lhs.numerator * rhs.denominator) (lhs.denominator * rhs.numerator)

/-- The two places where `operator^(Fraction, Fraction)` goes through the
`double` function `pow`, which is not part of `main.cpp`.

* `powInt a e` is `static_cast<long long>(pow(a, e))` of line 118.
* `rootCeil lhs rhs` is `static_cast<int>(ceil(val))` of lines 122-125. -/
structure FloatOps where
  powInt : Int → Int → Int
  rootCeil : Fraction → Fraction → Int

/-- Embedding of `operator^(Fraction, Fraction)` (lines 116-128). -/
def Fraction.pow (F : FloatOps) (lhs rhs : Fraction) : Outcome Fraction :=
  if rhs.denominator = 1 then
    Fraction.make (F.powInt lhs.numerator rhs.numerator) (F.powInt lhs.denominator rhs.numerator)
  else
    .ok (Fraction.ofInt (F.rootCeil lhs rhs))

/-! ## `Lambda` (lines 131-179) -/

/-- Reduction of a natural number to an `unsigned long long`. -/
def u64 (x : Nat) : Nat := x % 2 ^ 64

/-- Conversion of a `long long` to `unsigned long long`. -/
def toU64 (z : Int) : Nat := (z % 2 ^ 64).toNat

/-- Mirror of `class Lambda`: two `unsigned long long` fields. -/
structure Lambda where
  n : Nat
  b : Nat
deriving DecidableEq, Repr

/-- Embedding of `Lambda(int k)` (rule 4): `n = 1`, `b = abs(k)`. -/
def Lambda.ofInt (k : Int) : Lambda := { n := 1, b := k.natAbs }

/-- Embedding of `operator*(Lambda, Lambda)` (rule 5). -/
def Lambda.mul (lhs rhs : Lambda) : Lambda :=
  { n := u64 (lhs.n * rhs.n), b := u64 (lhs.b * rhs.b) }

/-- Embedding of `operator/(Lambda, Lambda)`: `return lhs * rhs;`. -/
def Lambda.div (lhs rhs : Lambda) : Lambda := Lambda.mul lhs rhs

/-- Embedding of `operator+(Lambda, Lambda)` (rule 6). -/
def Lambda.add (lhs rhs : Lambda) : Lambda :=
  { n := u64 (lhs.n * rhs.n), b := u64 (lhs.b + rhs.b) }

/-- Embedding of `operator-(Lambda, Lambda)`: `return lhs + rhs;`. -/
def Lambda.sub (lhs rhs : Lambda) : Lambda := Lambda.add lhs rhs

/-- The loop `for (mult = 1; mult < exponent.numerator; mult++) tmp = tmp * base;`
with `rounds` rounds still to run. -/
def Lambda.powLoop (base : Lambda) : Nat → Lambda → Lambda
  | 0, tmp => tmp
  | rounds + 1, tmp => Lambda.powLoop base rounds (Lambda.mul tmp base)

/-- Embedding of `operator^(Lambda, Fraction)` (rule 7, lines 172-179). With a
64-bit `size_t` the comparison `mult < exponent.numerator` is made between
unsigned 64-bit values, so the loop runs `toU64 exponent.numerator - 1` rounds
(none when that value is `0` or `1`). -/
def Lambda.pow (base : Lambda) (exponent : Fraction) : Lambda :=
  let tmp := Lambda.powLoop base (toU64 exponent.numerator - 1) base
  { n := u64 (tmp.n * toU64 exponent.denominator), b := tmp.b }

/-! ## Pass A of `isEqual` (lines 359-403) -/

/-- Value of a run of decimal digits. -/
def decimalValue (ds : List Char) : Nat :=
  ds.foldl (fun acc c => 10 * acc + (c.toNat - 48)) 0

/-- Embedding of `std::stoi` on the text of a token: the leading run of digits is converted;
the call throws when there is none or when the value exceeds `INT_MAX`. (Leading
blanks and a sign, which `std::stoi` also accepts, never start a `Number`
token.) -/
def stoi (s : String) : Outcome Int :=
  let ds := (scanDigits s.data).1
  if ds = [] then .error .stoiThrows
  else if decimalValue ds > 2147483647 then .error .stoiThrows
  else .ok (decimalValue ds)

/-- Embedding of `token.str[0]`; on an empty `std::string` this is the terminating NUL. -/
def firstChar (s : String) : Char := s.data.headD (Char.ofNat 0)

/-- One round of the Pass A loop: the new stack after `token`. -/
def stepA (F : FloatOps) (stack : List (Fraction × Lambda)) (token : Token) :
    Outcome (List (Fraction × Lambda)) :=
  match token.type with
  | .Number =>
    match stoi token.str with
    | .error e => .error e
    | .ok k => .ok ((Fraction.ofInt k, Lambda.ofInt k) :: stack)
  | .Operator =>
    match stack with
    | rhs :: lhs :: rest =>
      let c := firstChar token.str
      if c = '^' then
        (Fraction.pow F lhs.1 rhs.1).map fun f => (f, Lambda.pow lhs.2 rhs.1) :: rest
      else if c = '*' then
        (Fraction.mul lhs.1 rhs.1).map fun f => (f, Lambda.mul lhs.2 rhs.2) :: rest
      else if c = '/' then
        (Fraction.div lhs.1 rhs.1).map fun f => (f, Lambda.div lhs.2 rhs.2) :: rest
      else if c = '+' then
        (Fraction.add lhs.1 rhs.1).map fun f => (f, Lambda.add lhs.2 rhs.2) :: rest
      else if c = '-' then
        (Fraction.sub lhs.1 rhs.1).map fun f => (f, Lambda.sub lhs.2 rhs.2) :: rest
      else .error (.operatorError token.str)
    | _ => .error .emptyBack
  | _ => .error .tokenError

/-- The Pass A loop `while (!queue.empty())` from a given stack. -/
def passA (F : FloatOps) : List Token → List (Fraction × Lambda) →
    Outcome (List (Fraction × Lambda))
  | [], stack => .ok stack
  | token :: queue, stack =>
    match stepA F stack token with
    | .error e => .error e
    | .ok stack2 => passA F queue stack2

/-! ## Pass B of `isEqual` (lines 413-451) -/

/-- The operations of the arbitrary-precision type `mpfr::mpreal` used by
`isEqual`; `mpreal.h` is not part of `main.cpp`.

* `ofString s` is `mpfr::mpreal(token.str)`.
* `invPow x y` is `mpfr::mpreal(1) / pow(x, y)` of line 410, for the two
  `unsigned long long` arguments `x = lam.n * lam.b` and `y = lam.n - 1`.
* `lt` is `operator<`. -/
structure Numeric (R : Type) where
  ofString : String → R
  pow : R → R → R
  mul : R → R → R
  div : R → R → R
  add : R → R → R
  sub : R → R → R
  invPow : Nat → Nat → R
  lt : R → R → Bool

/-- One round of the Pass B loop. An operator character outside `^ * / + -`
pops two operands and pushes nothing; other token kinds are skipped. -/
def stepB {R : Type} (N : Numeric R) (calcStack : List R) (token : Token) : Outcome (List R) :=
  match token.type with
  | .Number => .ok (N.ofString token.str :: calcStack)
  | .Operator =>
    match calcStack with
    | rhs :: lhs :: rest =>
      let c := firstChar token.str
      if c = '^' then .ok (N.pow lhs rhs :: rest)
      else if c = '*' then .ok (N.mul lhs rhs :: rest)
      else if c = '/' then .ok (N.div lhs rhs :: rest)
      else if c = '+' then .ok (N.add lhs rhs :: rest)
      else if c = '-' then .ok (N.sub lhs rhs :: rest)
      else .ok rest
    | _ => .error .emptyBack
  | _ => .ok calcStack

/-- The Pass B loop `while (!calcQueue.empty())` from a given stack. -/
def passB {R : Type} (N : Numeric R) : List Token → List R → Outcome (List R)
  | [], calcStack => .ok calcStack
  | token :: calcQueue, calcStack =>
    match stepB N calcStack token with
    | .error e => .error e
    | .ok calcStack2 => passB N calcQueue calcStack2

/-! ## `isEqual` (lines 353-454) -/

/-- Embedding of `stack.back()` of a vector used as a stack. -/
def back {α : Type} : List α → Outcome α
  | [] => .error .emptyBack
  | top :: _ => .ok top

/-- The bound `lam` of line 405 for a postfix queue: the second component of
the top of the Pass A stack. -/
def finalLambda (F : FloatOps) (queue : List Token) : Outcome Lambda :=
  match passA F queue [] with
  | .error e => .error e
  | .ok stack => (back stack).map fun top => top.2

/-- The value `epsilon` of line 410 for the bound `lam`. -/
def epsilonOf {R : Type} (N : Numeric R) (lam : Lambda) : R :=
  N.invPow (u64 (lam.n * lam.b)) (u64 (lam.n + (2 ^ 64 - 1)))

/-- The value `result` of line 451 for a postfix queue. -/
def numericResult {R : Type} (N : Numeric R) (queue : List Token) : Outcome R :=
  match passB N queue [] with
  | .error e => .error e
  | .ok calcStack => back calcStack

/-- Embedding of `isEqual`. The queue handed to the two passes is what
`shuntingYard` returned (the empty deque after a reported error). -/
def isEqual {R : Type} (N : Numeric R) (F : FloatOps) (val1 val2 : String) : Outcome Bool :=
  let equation := val1 ++ "-" ++ val2
  let tokens := exprToTokens equation
  match (shuntingYard tokens).returned with
  | none => .error .emptyBack
  | some queue =>
    match finalLambda F queue with
    | .error e => .error e
    | .ok lam =>
      let epsilon := epsilonOf N lam
      match numericResult N queue with
      | .error e => .error e
      | .ok result => .ok (N.lt result epsilon)

/-! ## Exact real arithmetic for Pass B -/

/-- Pass B arithmetic without rounding: every `mpreal` operation returns the
exact real number, `ofString` the value of the decimal digits of the text, and
`pow` the real power function (for a negative base with a non-integral
exponent, where MPFR has no number to return, the convention of `Real.rpow`
applies). -/
noncomputable def realNumeric : Numeric ℝ where
  ofString := fun s => ((decimalValue s.data : Nat) : ℝ)
  pow := fun x y => x ^ y
  mul := fun x y => x * y
  div := fun x y => x / y
  add := fun x y => x + y
  sub := fun x y => x - y
  invPow := fun x y => 1 / ((x : ℝ) ^ y)
  lt := fun x y => @decide (x < y) (Classical.propDecidable _)

/-! ## Named inputs -/

/-- Postfix queue of the equation `2-3`. -/
def queueTwoMinusThree : List Token :=
  [numberToken ['2'], numberToken ['3'], charToken '-']

/-- Postfix queue of the equation `1-5`. -/
def queueOneMinusFive : List Token :=
  [numberToken ['1'], numberToken ['5'], charToken '-']

/-- First argument of the call of `isEqual` in `main` (line 459). -/
def mainLhs : String := "2^(1/2)+(5-2*(6)^(1/2))^(1/2)"

/-- Second argument of the call of `isEqual` in `main` (line 459). -/
def mainRhs : String := "3^(1/2)"

/-- The `Number` token whose text is `s`. -/
def num (s : String) : Token := numberToken s.data

/-- Postfix queue of the equation built from `mainLhs` and `mainRhs`. -/
def queueMain : List Token :=
  [num "2", num "1", num "2", charToken '/', charToken '^',
   num "5", num "2", num "6", num "1", num "2", charToken '/', charToken '^',
   charToken '*', charToken '-',
   num "1", num "2", charToken '/', charToken '^', charToken '+',
   num "3", num "1", num "2", charToken '/', charToken '^', charToken '-']

/-! ## Notions used to state the claims -/

/-- Precedence convention of the tokenizer, in the form `shuntingYard` relies
on: an operator carries a non-negative precedence and a left parenthesis a
negative one (`exprToTokens` gives `2`, `3`, `4` and `-1`). -/
def Token.precedenceOk (t : Token) : Bool :=
  match t.type with
  | .Operator => decide (0 ≤ t.precedence)
  | .LeftParen => decide (t.precedence < 0)
  | _ => true

/-- Parenthesis matching over a token sequence, started with `depth` left
parentheses open: `none` when a right parenthesis has no open left parenthesis
to close, otherwise the number of left parentheses never closed. -/
def parenDepth : List Token → Nat → Option Nat
  | [], depth => some depth
  | t :: ts, depth =>
    match t.type with
    | .LeftParen => parenDepth ts (depth + 1)
    | .RightParen => if depth = 0 then none else parenDepth ts (depth - 1)
    | _ => parenDepth ts depth

/-- Number of `LeftParen` tokens on a stack. -/
def leftParens : List Token → Nat
  | [] => 0
  | t :: ts => if t.type = TokenType.LeftParen then leftParens ts + 1 else leftParens ts

/-- An operator token built with the default arguments of the `Token`
constructor (`prec = -1`, `ra = false`). -/
def defaultPlus : Token := { type := .Operator, str := "+" }

/-- The rational number a fraction stands for. -/
def Fraction.value (f : Fraction) : ℚ := (f.numerator : ℚ) / (f.denominator : ℚ)

/-- The invariant of the spec's data model: positive denominator and lowest
terms. -/
def Fraction.reduced (f : Fraction) : Prop :=
  0 < f.denominator ∧ Int.gcd f.numerator f.denominator = 1

/-- Componentwise order on bounds: `l` is at most `r` in degree and in height. -/
def Lambda.le (l r : Lambda) : Prop := l.n ≤ r.n ∧ l.b ≤ r.b

/-- The characters of the expression language: decimal digits, blanks,
parentheses and the five operator characters. -/
def allowedChar (c : Char) : Bool :=
  isdigit c || isblank c || c = '(' || c = ')' || c = '^' || c = '*' || c = '/'
    || c = '+' || c = '-'

/-- The texts of a token sequence, concatenated in order. -/
def tokenTexts (tokens : List Token) : String :=
  String.join (tokens.map fun t => t.str)

/-- Exact counterpart of `static_cast<long long>(pow(a, e))` (line 118) for
`long long` arguments: the integer power for `e ≥ 0`, and for `e < 0` the
power `a^e` truncated toward zero, which is `0` unless `a` is `1` or `-1`
(for `a = 0` and `e < 0`, where `pow` returns infinity and the cast has no
defined result, the value `0` is put). -/
def idealPowInt (a e : Int) : Int :=
  if 0 ≤ e then a ^ e.toNat
  else if a = 1 then 1
  else if a = -1 then (if e % 2 = 0 then 1 else -1)
  else 0

/-- Search for the least `k` at or above the given one with `num ≤ k ^ q * den`,
within `fuel` steps. -/
def ceilRootLoop (q num den : Nat) : Nat → Nat → Nat
  | 0, k => k
  | fuel + 1, k => if num ≤ k ^ q * den then k else ceilRootLoop q num den fuel (k + 1)

/-- Exact counterpart of lines 122-125 for a base `a/d` and an exponent `p/q`:
the ceiling of `max(v, 1/v)` with `v = (|a|/d)^(p/q)`, which is the least
`k ≥ 1` with `k^q * m^|p| ≥ M^|p|` for `M = max(|a|, d)` and `m = min(|a|, d)`
(for `a = 0`, where `1/v` or `v` is infinite and the cast has no defined
result, the value `0` is put). -/
def idealRootCeil (lhs rhs : Fraction) : Int :=
  let a := lhs.numerator.natAbs
  let d := lhs.denominator.natAbs
  let p := rhs.numerator.natAbs
  let q := rhs.denominator.natAbs
  if a = 0 ∨ d = 0 then 0
  else ((ceilRootLoop q ((max a d) ^ p) ((min a d) ^ p) ((max a d) ^ p) 1 : Nat) : Int)

/-- The `double` arithmetic of `operator^(Fraction, Fraction)` without rounding
error. -/
def idealFloat : FloatOps where
  powInt := idealPowInt
  rootCeil := idealRootCeil

/-- Tokens the evaluator accepts: `Number` and `Operator`. -/
def Token.evaluable (t : Token) : Bool :=
  decide (t.type = TokenType.Number) || decide (t.type = TokenType.Operator)

/-- Tokens of kind `Number`. -/
def Token.isNumber (t : Token) : Bool := decide (t.type = TokenType.Number)

/-- The four operators of the expressions without exponentiation. -/
inductive BinOp where
  | add
  | sub
  | mul
  | div
deriving DecidableEq, Repr

/-- Expression trees over integer literals (given by their digits) and the
operators `+ - * /`; parentheses are the shape of the tree. -/
inductive Arith where
  | lit (digits : List Char)
  | bin (op : BinOp) (lhs rhs : Arith)
deriving Repr

/-- The exact rational value of an expression tree; `none` when it contains a
division by zero. -/
def Arith.value : Arith → Option ℚ
  | .lit digits => some (decimalValue digits : ℚ)
  | .bin op lhs rhs =>
    match lhs.value, rhs.value with
    | some a, some b =>
      match op with
      | .add => some (a + b)
      | .sub => some (a - b)
      | .mul => some (a * b)
      | .div => if b = 0 then none else some (a / b)
    | _, _ => none

/-- Postfix queue of the expression `2^(0-1)`. -/
def queueNegativeExponent : List Token :=
  [num "2", num "0", num "1", charToken '-', charToken '^']

/-! ## Helper lemmas: evaluation on small inputs -/

theorem shuntingYard_two_minus_three :
    shuntingYard (exprToTokens ("2" ++ "-" ++ "3")) = .queue queueTwoMinusThree := by
  decide

theorem finalLambda_two_minus_three (F : FloatOps) :
    finalLambda F queueTwoMinusThree = .ok { n := 1, b := 5 } := by
  rfl

theorem numericResult_two_minus_three :
    numericResult realNumeric queueTwoMinusThree = .ok (2 - 3) := by
  simp [queueTwoMinusThree, numericResult, passB, stepB, numberToken, charToken, firstChar,
    realNumeric, back, decimalValue]

theorem shuntingYard_one_minus_five :
    shuntingYard (exprToTokens ("1" ++ "-" ++ "5")) = .queue queueOneMinusFive := by
  decide

theorem finalLambda_one_minus_five (F : FloatOps) :
    finalLambda F queueOneMinusFive = .ok { n := 1, b := 6 } := by
  rfl

theorem numericResult_one_minus_five :
    numericResult realNumeric queueOneMinusFive = .ok (1 - 5) := by
  simp [queueOneMinusFive, numericResult, passB, stepB, numberToken, charToken, firstChar,
    realNumeric, back, decimalValue]

theorem u64_wrap_one : u64 (1 + (2 ^ 64 - 1)) = 0 := by
  norm_num [u64]

theorem epsilonOf_degree_one (b : Nat) :
    epsilonOf realNumeric { n := 1, b := b } = 1 := by
  show (1 : ℝ) / ((u64 (1 * b) : ℝ) ^ (u64 (1 + (2 ^ 64 - 1)))) = 1
  rw [u64_wrap_one]
  simp

/-! ## Helper lemmas: the `gcd` loop, `Fraction.make` and the call in `main` -/

set_option maxRecDepth 100000 in
theorem shuntingYard_main :
    shuntingYard (exprToTokens (mainLhs ++ "-" ++ mainRhs)) = .queue queueMain := by
  decide

theorem gcdLoop_fuel (fuel : Nat) : ∀ a b : Nat, 0 < a → 0 < b → a + b ≤ fuel →
    gcdLoop fuel (a : Int) (b : Int) = some ((Nat.gcd a b : Nat) : Int) := by
  induction fuel with
  | zero => intro a b ha hb h; omega
  | succ fuel ih =>
    intro a b ha hb h
    unfold gcdLoop
    by_cases hab : a = b
    · subst hab
      simp
    · have hne : (a : Int) ≠ (b : Int) := by exact_mod_cast hab
      rw [if_neg hne]
      by_cases hgt : b < a
      · have hgt2 : (a : Int) > (b : Int) := by exact_mod_cast hgt
        rw [if_pos hgt2]
        have hsub : (a : Int) - (b : Int) = ((a - b : Nat) : Int) := by omega
        rw [hsub, ih (a - b) b (by omega) hb (by omega), Nat.gcd_sub_self_left (le_of_lt hgt)]
      · have hgt2 : ¬ ((a : Int) > (b : Int)) := by omega
        rw [if_neg hgt2]
        have hlt : a ≤ b := by omega
        have hsub : (b : Int) - (a : Int) = ((b - a : Nat) : Int) := by omega
        rw [hsub, ih a (b - a) ha (by omega) (by omega), Nat.gcd_sub_self_right hlt]

theorem make_one (n : Int) : Fraction.make n 1 = .ok ⟨n, 1⟩ := by
  unfold Fraction.make Fraction.gcd
  by_cases hn : n = 0
  · simp [hn]
  · have h10 : ¬ ((1 : Int) = 0) := by decide
    have h1neg : ¬ ((1 : Int) < 0) := by decide
    simp only [if_neg hn, if_neg h10, if_neg h1neg]
    rcases lt_or_gt_of_ne hn with h | h
    · obtain ⟨k, hk⟩ : ∃ k : Nat, n * -1 = ((k + 1 : Nat) : Int) := ⟨(-n).toNat - 1, by omega⟩
      simp only [if_pos h, hk]
      have := gcdLoop_fuel ((k + 1) + 1) (k + 1) 1 (by omega) (by omega) (by omega)
      simp only [Int.toNat_ofNat, Nat.gcd_one_right] at this ⊢
      have h1 : (1 : Int).toNat = 1 := rfl
      rw [h1]
      simp only [Nat.cast_one] at this
      rw [this]
      simp
      omega
    · obtain ⟨k, hk⟩ : ∃ k : Nat, n = ((k + 1 : Nat) : Int) := ⟨n.toNat - 1, by omega⟩
      have hnn : ¬ (n < 0) := by omega
      simp only [if_neg hnn]
      subst hk
      have := gcdLoop_fuel ((k + 1) + 1) (k + 1) 1 (by omega) (by omega) (by omega)
      simp only [Int.toNat_ofNat, Nat.gcd_one_right] at this ⊢
      have h1 : (1 : Int).toNat = 1 := rfl
      rw [h1]
      simp only [Nat.cast_one] at this
      rw [this]
      simp


theorem make_one_two : Fraction.make 1 2 = .ok ⟨1, 2⟩ := by rfl

theorem Lambda.pow_half (l : Lambda) : Lambda.pow l ⟨1, 2⟩ = ⟨u64 (l.n * 2), l.b⟩ := by
  rfl

theorem stoi_digit1 : stoi "1" = .ok 1 := by rfl
theorem stoi_digit2 : stoi "2" = .ok 2 := by rfl
theorem stoi_digit3 : stoi "3" = .ok 3 := by rfl
theorem stoi_digit5 : stoi "5" = .ok 5 := by rfl
theorem stoi_digit6 : stoi "6" = .ok 6 := by rfl

theorem finalLambda_main (F : FloatOps) : finalLambda F queueMain = .ok ⟨16, 22⟩ := by
  simp [finalLambda, queueMain, passA, stepA, num, numberToken, charToken, firstChar,
    stoi_digit1, stoi_digit2, stoi_digit3, stoi_digit5, stoi_digit6,
    Fraction.pow, Fraction.mul, Fraction.div, Fraction.add, Fraction.sub, Fraction.ofInt,
    make_one, make_one_two, Lambda.pow_half, Lambda.ofInt, Lambda.mul, Lambda.add, Lambda.sub,
    Lambda.div, back, Except.map, u64]


theorem numericResult_main :
    numericResult realNumeric queueMain =
      .ok ((2 : ℝ) ^ ((1 : ℝ) / 2) + (5 - 2 * (6 : ℝ) ^ ((1 : ℝ) / 2)) ^ ((1 : ℝ) / 2)
        - (3 : ℝ) ^ ((1 : ℝ) / 2)) := by
  simp [numericResult, queueMain, passB, stepB, num, numberToken, charToken, firstChar,
    realNumeric, back, decimalValue]

theorem main_difference_zero :
    (2 : ℝ) ^ ((1 : ℝ) / 2) + (5 - 2 * (6 : ℝ) ^ ((1 : ℝ) / 2)) ^ ((1 : ℝ) / 2)
        - (3 : ℝ) ^ ((1 : ℝ) / 2) = 0 := by
  rw [← Real.sqrt_eq_rpow, ← Real.sqrt_eq_rpow, ← Real.sqrt_eq_rpow, ← Real.sqrt_eq_rpow]
  have h2 : Real.sqrt 2 ^ 2 = 2 := Real.sq_sqrt (by norm_num)
  have h3 : Real.sqrt 3 ^ 2 = 3 := Real.sq_sqrt (by norm_num)
  have h6 : Real.sqrt 6 = Real.sqrt 2 * Real.sqrt 3 := by
    rw [← Real.sqrt_mul (by norm_num)]
    norm_num
  have hle : Real.sqrt 2 ≤ Real.sqrt 3 := Real.sqrt_le_sqrt (by norm_num)
  have hsq : 5 - 2 * Real.sqrt 6 = (Real.sqrt 3 - Real.sqrt 2) ^ 2 := by
    rw [h6]; nlinarith [h2, h3]
  rw [hsq, Real.sqrt_sq (by linarith)]
  ring

theorem epsilonOf_main : epsilonOf realNumeric ⟨16, 22⟩ = 1 / (352 : ℝ) ^ 15 := by
  show (1 : ℝ) / ((u64 (16 * 22) : ℝ) ^ (u64 (16 + (2 ^ 64 - 1)))) = 1 / (352 : ℝ) ^ 15
  have h1 : u64 (16 * 22) = 352 := by norm_num [u64]
  have h2 : u64 (16 + (2 ^ 64 - 1)) = 15 := by norm_num [u64]
  rw [h1, h2]
  norm_num

/-! ## Helper lemmas: the tokenizer -/

theorem scanDigits_length (cs : List Char) : (scanDigits cs).2.length ≤ cs.length := by
  induction cs with
  | nil => simp [scanDigits]
  | cons c cs ih =>
    unfold scanDigits
    split
    · simp only [List.length_cons]; omega
    · simp

theorem scanDigits_length_digit (c : Char) (cs : List Char) (h : isdigit c = true) :
    (scanDigits (c :: cs)).2.length ≤ cs.length := by
  unfold scanDigits
  rw [if_pos h]
  exact scanDigits_length cs

theorem tokenLoop_fuel (fuel : Nat) : ∀ cs : List Char, cs.length ≤ fuel →
    tokenLoop fuel cs = tokenLoop cs.length cs := by
  induction fuel using Nat.strong_induction_on with
  | _ fuel ih =>
    intro cs hlen
    cases cs with
    | nil => cases fuel <;> simp [tokenLoop]
    | cons c cs =>
      cases fuel with
      | zero => simp at hlen
      | succ fuel =>
        have hcs : cs.length ≤ fuel := by simpa using hlen
        simp only [List.length_cons, tokenLoop]
        by_cases hb : isblank c = true
        · simp only [if_pos hb]
          exact ih fuel (Nat.lt_succ_self _) cs hcs
        · simp only [if_neg hb]
          by_cases hd : isdigit c = true
          · simp only [if_pos hd]
            have hr := scanDigits_length_digit c cs hd
            rw [ih fuel (Nat.lt_succ_self _) _ (le_trans hr hcs)]
            rw [ih cs.length (Nat.lt_succ_of_le hcs) _ hr]
          · simp only [if_neg hd]
            rw [ih fuel (Nat.lt_succ_self _) cs hcs]

theorem scanDigits_run (a : List Char) (ha : ∀ ch ∈ a, isdigit ch = true) (c : Char)
    (hc : isdigit c = false) (rest : List Char) :
    scanDigits (a ++ c :: rest) = (a, c :: rest) := by
  induction a with
  | nil => simp [scanDigits, hc]
  | cons d a ih =>
    have hd : isdigit d = true := ha d (List.mem_cons_self _ _)
    have ih2 := ih (fun ch hch => ha ch (List.mem_cons_of_mem _ hch))
    simp [scanDigits, hd, ih2]

theorem scanDigits_all (a : List Char) (ha : ∀ ch ∈ a, isdigit ch = true) :
    scanDigits a = (a, []) := by
  induction a with
  | nil => simp [scanDigits]
  | cons d a ih =>
    have hd : isdigit d = true := ha d (List.mem_cons_self _ _)
    have ih2 := ih (fun ch hch => ha ch (List.mem_cons_of_mem _ hch))
    simp [scanDigits, hd, ih2]

theorem isblank_of_isdigit (c : Char) (h : isdigit c = true) : isblank c = false := by
  cases hb : isblank c with
  | false => rfl
  | true =>
    exfalso
    simp only [isblank, Bool.or_eq_true, decide_eq_true_eq] at hb
    rcases hb with hb | hb <;> subst hb <;> revert h <;> decide

theorem tokenLoop_digit (fuel : Nat) (d : Char) (cs : List Char) (hd : isdigit d = true) :
    tokenLoop (fuel + 1) (d :: cs)
      = numberToken (scanDigits (d :: cs)).1 :: tokenLoop fuel (scanDigits (d :: cs)).2 := by
  have hb : isblank d = false := isblank_of_isdigit d hd
  simp only [tokenLoop, hb, hd, if_true, Bool.false_eq_true, if_false]

theorem tokenLoop_number_then (a : List Char) (hne : a ≠ []) (ha : ∀ ch ∈ a, isdigit ch = true)
    (c : Char) (hc : isdigit c = false) (rest : List Char) :
    tokenLoop (a ++ c :: rest).length (a ++ c :: rest)
      = numberToken a :: tokenLoop (c :: rest).length (c :: rest) := by
  cases a with
  | nil => exact absurd rfl hne
  | cons d a =>
    have hd : isdigit d = true := ha d (List.mem_cons_self _ _)
    have hs := scanDigits_run (d :: a) ha c hc rest
    rw [List.cons_append] at hs ⊢
    rw [List.length_cons, tokenLoop_digit _ d _ hd, hs]
    rw [tokenLoop_fuel _ (c :: rest) (by simp)]

theorem tokenLoop_number_end (a : List Char) (hne : a ≠ []) (ha : ∀ ch ∈ a, isdigit ch = true) :
    tokenLoop a.length a = [numberToken a] := by
  cases a with
  | nil => exact absurd rfl hne
  | cons d a =>
    have hd : isdigit d = true := ha d (List.mem_cons_self _ _)
    have hs := scanDigits_all (d :: a) ha
    rw [List.length_cons, tokenLoop_digit _ d _ hd, hs]
    cases h : a.length <;> simp [tokenLoop]

theorem tokenLoop_char (c : Char) (hb : isblank c = false) (hd : isdigit c = false)
    (rest : List Char) :
    tokenLoop (c :: rest).length (c :: rest) = charToken c :: tokenLoop rest.length rest := by
  simp [tokenLoop, hb, hd]

theorem cString_mk (cs : List Char) (h : ∀ ch ∈ cs, ch ≠ Char.ofNat 0) :
    cString (String.mk cs) = cs := by
  unfold cString
  simp only [List.takeWhile_eq_self_iff]
  intro ch hch
  simpa using h ch hch

theorem shuntingYard_tower (ta tb tc : Token) (ha : ta.type = .Number) (hb : tb.type = .Number)
    (hc : tc.type = .Number) :
    shuntingYard [ta, charToken '^', tb, charToken '^', tc]
      = .queue [ta, tb, tc, charToken '^', charToken '^'] := by
  simp [shuntingYard, shuntLoop, ha, hb, hc, charToken, popOperators, popsBefore, drain]


theorem exprToTokens_tower (a b c : List Char)
    (hane : a ≠ []) (ha : ∀ ch ∈ a, isdigit ch = true)
    (hbne : b ≠ []) (hb : ∀ ch ∈ b, isdigit ch = true)
    (hcne : c ≠ []) (hc : ∀ ch ∈ c, isdigit ch = true) :
    exprToTokens (String.mk (a ++ '^' :: (b ++ '^' :: c)))
      = [numberToken a, charToken '^', numberToken b, charToken '^', numberToken c] := by
  have hnul : ∀ ch, isdigit ch = true → ch ≠ Char.ofNat 0 := by
    intro ch h h0
    subst h0
    revert h
    decide
  have hall : ∀ ch ∈ a ++ '^' :: (b ++ '^' :: c), ch ≠ Char.ofNat 0 := by
    intro ch hch
    simp only [List.mem_append, List.mem_cons] at hch
    rcases hch with h | h | h | h | h
    · exact hnul ch (ha ch h)
    · subst h; decide
    · exact hnul ch (hb ch h)
    · subst h; decide
    · exact hnul ch (hc ch h)
  unfold exprToTokens
  rw [cString_mk _ hall]
  rw [tokenLoop_number_then a hane ha '^' (by decide), tokenLoop_char '^' (by decide) (by decide),
    tokenLoop_number_then b hbne hb '^' (by decide), tokenLoop_char '^' (by decide) (by decide),
    tokenLoop_number_end c hcne hc]

/-! ## Helper lemmas: parentheses on the operator stack -/

theorem drain_leftParen (stack : List Token) : ∀ queue : List Token, 0 < leftParens stack →
    drain stack queue = .mismatchedParentheses := by
  induction stack with
  | nil => intro queue h; simp [leftParens] at h
  | cons t stack ih =>
    intro queue h
    unfold drain
    by_cases ht : t.type = TokenType.LeftParen
    · rw [if_pos ht]
    · rw [if_neg ht]
      apply ih
      simpa [leftParens, ht] using h

theorem popsBefore_leftParen (o1 lp : Token) (h1 : 0 ≤ o1.precedence) (h2 : lp.precedence < 0) :
    popsBefore o1 lp = false := by
  unfold popsBefore
  have ha : ¬ (o1.precedence ≤ lp.precedence) := by omega
  have hb : ¬ (o1.precedence < lp.precedence) := by omega
  simp [ha, hb]

theorem popOperators_leftParens (o1 : Token) (h1 : 0 ≤ o1.precedence) (stack : List Token) :
    ∀ queue : List Token,
    (∀ t ∈ stack, t.type = TokenType.LeftParen → t.precedence < 0) →
    leftParens (popOperators o1 stack queue).1 = leftParens stack ∧
    ∀ t ∈ (popOperators o1 stack queue).1, t ∈ stack := by
  induction stack with
  | nil => intro queue _; simp [popOperators]
  | cons o2 stack ih =>
    intro queue hS
    unfold popOperators
    by_cases hp : popsBefore o1 o2 = true
    · rw [if_pos hp]
      have hnot : o2.type ≠ TokenType.LeftParen := by
        intro ht
        have := popsBefore_leftParen o1 o2 h1 (hS o2 (List.mem_cons_self _ _) ht)
        rw [this] at hp
        exact Bool.false_ne_true hp
      obtain ⟨ih1, ih2⟩ := ih (queue ++ [o2]) (fun t ht => hS t (List.mem_cons_of_mem _ ht))
      refine ⟨?_, fun t ht => List.mem_cons_of_mem _ (ih2 t ht)⟩
      rw [ih1]
      simp [leftParens, hnot]
    · rw [if_neg hp]
      exact ⟨rfl, fun t ht => ht⟩

theorem popToLeftParen_leftParens (stack : List Token) : ∀ (queue : List Token) (m : Bool),
    0 < leftParens stack →
    ∃ lp stack2 queue2 m2, popToLeftParen stack queue m = (lp :: stack2, queue2, m2) ∧
      leftParens stack2 + 1 = leftParens stack ∧ ∀ t ∈ stack2, t ∈ stack := by
  induction stack with
  | nil => intro queue m h; simp [leftParens] at h
  | cons t stack ih =>
    intro queue m h
    unfold popToLeftParen
    by_cases ht : t.type = TokenType.LeftParen
    · refine ⟨t, stack, queue, m, ?_, ?_, fun u hu => List.mem_cons_of_mem _ hu⟩
      · simp [ht]
      · simp [leftParens, ht]
    · have h2 : 0 < leftParens stack := by simpa [leftParens, ht] using h
      obtain ⟨lp, stack2, queue2, m2, e, hc, hm⟩ := ih (queue ++ [t]) true h2
      refine ⟨lp, stack2, queue2, m2, ?_, ?_, fun u hu => List.mem_cons_of_mem _ (hm u hu)⟩
      · simp [ht, e]
      · simpa [leftParens, ht] using hc

theorem shuntLoop_unclosed (tokens : List Token) : ∀ (queue stack : List Token) (d : Nat),
    (∀ t ∈ tokens, t.type ≠ TokenType.Unknown ∧ t.precedenceOk = true) →
    (∀ t ∈ stack, t.type = TokenType.LeftParen → t.precedence < 0) →
    parenDepth tokens (leftParens stack) = some d → 0 < d →
    shuntLoop tokens queue stack = .mismatchedParentheses ∨
      ∃ text, shuntLoop tokens queue stack = .rightParenError text := by
  induction tokens with
  | nil =>
    intro queue stack d _ _ hd hpos
    simp only [parenDepth, Option.some.injEq] at hd
    left
    exact drain_leftParen stack queue (by omega)
  | cons token rest ih =>
    intro queue stack d hT hS hd hpos
    have hrest : ∀ t ∈ rest, t.type ≠ TokenType.Unknown ∧ t.precedenceOk = true :=
      fun t ht => hT t (List.mem_cons_of_mem _ ht)
    obtain ⟨hunk, hok⟩ := hT token (List.mem_cons_self _ _)
    unfold shuntLoop
    unfold parenDepth at hd
    cases htype : token.type with
    | Unknown => exact absurd htype hunk
    | Number =>
      simp only [htype] at hd ⊢
      exact ih _ _ d hrest hS hd hpos
    | Operator =>
      simp only [htype] at hd ⊢
      have hprec : 0 ≤ token.precedence := by
        simpa [Token.precedenceOk, htype] using hok
      obtain ⟨hc, hm⟩ := popOperators_leftParens token hprec stack queue hS
      apply ih _ _ d hrest
      · intro t ht hlp
        rcases List.mem_cons.mp ht with h | h
        · subst h; rw [htype] at hlp; cases hlp
        · exact hS t (hm t h) hlp
      · simpa [leftParens, htype, hc] using hd
      · exact hpos
    | LeftParen =>
      simp only [htype] at hd ⊢
      have hprec : token.precedence < 0 := by
        simpa [Token.precedenceOk, htype] using hok
      apply ih _ _ d hrest
      · intro t ht hlp
        rcases List.mem_cons.mp ht with h | h
        · subst h; exact hprec
        · exact hS t h hlp
      · simpa [leftParens, htype] using hd
      · exact hpos
    | RightParen =>
      simp only [htype] at hd ⊢
      by_cases h0 : leftParens stack = 0
      · simp [h0] at hd
      · rw [if_neg h0] at hd
        obtain ⟨lp, stack2, queue2, m2, e, hc, hm⟩ :=
          popToLeftParen_leftParens stack queue false (by omega)
        rw [e]
        simp only
        by_cases hcond : (!m2 && stack2.isEmpty) = true
        · right
          exact ⟨token.str, by rw [if_pos hcond]⟩
        · rw [if_neg hcond]
          apply ih _ _ d hrest
          · exact fun t ht hlp => hS t (hm t ht) hlp
          · have : leftParens stack - 1 = leftParens stack2 := by omega
            rw [← this]; exact hd
          · exact hpos

/-! ## Helper lemmas: the loop of the `Lambda` power -/

theorem u64_mul_u64_left (x y : Nat) : u64 (u64 x * y) = u64 (x * y) := by
  unfold u64
  exact Nat.mod_mul_mod

theorem powLoop_value (base : Lambda) (rounds : Nat) : ∀ j : Nat,
    Lambda.powLoop base rounds { n := u64 (base.n ^ j), b := u64 (base.b ^ j) }
      = { n := u64 (base.n ^ (j + rounds)), b := u64 (base.b ^ (j + rounds)) } := by
  induction rounds with
  | zero => intro j; simp [Lambda.powLoop]
  | succ rounds ih =>
    intro j
    have h := ih (j + 1)
    simp only [Lambda.powLoop, Lambda.mul, u64_mul_u64_left, ← pow_succ]
    rw [h]
    have : j + 1 + rounds = j + (rounds + 1) := by omega
    rw [this]

/-! ## Helper lemmas: the invariant of `Fraction` and its arithmetic -/

theorem gcd_branch (a b : Nat) (ha : 0 < a) (hb : 0 < b) (s : Int) :
    (match Fraction.gcd (a : Int) (b : Int) with
      | none => (Except.error Failure.gcdOutOfFuel : Outcome Fraction)
      | some tmp => Except.ok { numerator := Int.tdiv (a : Int) tmp * s,
                                denominator := Int.tdiv (b : Int) tmp })
      = .ok { numerator := ((a / Nat.gcd a b : Nat) : Int) * s,
              denominator := ((b / Nat.gcd a b : Nat) : Int) } := by
  unfold Fraction.gcd
  simp only [Int.toNat_ofNat]
  rw [gcdLoop_fuel (a + b) a b ha hb le_rfl]
  simp only [Int.tdiv, Int.ofNat_eq_coe]

theorem make_eq (n d : Int) (hn : n ≠ 0) (hd : d ≠ 0) :
    Fraction.make n d = .ok
      { numerator := ((n.natAbs / Nat.gcd n.natAbs d.natAbs : Nat) : Int) * (n.sign * d.sign),
        denominator := ((d.natAbs / Nat.gcd n.natAbs d.natAbs : Nat) : Int) } := by
  unfold Fraction.make
  rw [if_neg hd, if_neg hn]
  have hna : 0 < n.natAbs := Int.natAbs_pos.mpr hn
  have hda : 0 < d.natAbs := Int.natAbs_pos.mpr hd
  have h := gcd_branch n.natAbs d.natAbs hna hda (n.sign * d.sign)
  have hn1 : (if n < 0 then n * -1 else n) = (n.natAbs : Int) := by
    split <;> omega
  have hd1 : (if d < 0 then d * -1 else d) = (d.natAbs : Int) := by
    split <;> omega
  have hs : (if d < 0 then (if n < 0 then (-1 : Int) else 1) * -1 else (if n < 0 then (-1 : Int) else 1))
      = n.sign * d.sign := by
    rcases lt_or_gt_of_ne hn with h1 | h1 <;> rcases lt_or_gt_of_ne hd with h2 | h2
    · simp [h1, h2, Int.sign_eq_neg_one_of_neg]
    · have : ¬ d < 0 := by omega
      simp [h1, this, Int.sign_eq_neg_one_of_neg h1, Int.sign_eq_one_of_pos h2]
    · have : ¬ n < 0 := by omega
      simp [h2, this, Int.sign_eq_neg_one_of_neg h2, Int.sign_eq_one_of_pos h1]
    · have h3 : ¬ n < 0 := by omega
      have h4 : ¬ d < 0 := by omega
      simp [h3, h4, Int.sign_eq_one_of_pos h1, Int.sign_eq_one_of_pos h2]
  simp only [hn1, hd1, hs]
  exact h

theorem make_zero (d : Int) (hd : d ≠ 0) :
    Fraction.make 0 d = .ok { numerator := 0, denominator := 1 } := by
  unfold Fraction.make
  rw [if_neg hd, if_pos rfl]

theorem make_spec (n d : Int) (hd : d ≠ 0) :
    ∃ f : Fraction, Fraction.make n d = .ok f ∧ f.reduced ∧ f.numerator * d = n * f.denominator := by
  by_cases hn : n = 0
  · subst hn
    exact ⟨_, make_zero d hd, ⟨by decide, by decide⟩, by simp⟩
  · refine ⟨_, make_eq n d hn hd, ⟨?_, ?_⟩, ?_⟩
    · have hna : 0 < n.natAbs := Int.natAbs_pos.mpr hn
      have hda : 0 < d.natAbs := Int.natAbs_pos.mpr hd
      have hg : 0 < Nat.gcd n.natAbs d.natAbs := Nat.gcd_pos_of_pos_left _ hna
      have : 0 < d.natAbs / Nat.gcd n.natAbs d.natAbs :=
        Nat.div_pos (Nat.le_of_dvd hda (Nat.gcd_dvd_right _ _)) hg
      show (0 : Int) < ((d.natAbs / Nat.gcd n.natAbs d.natAbs : Nat) : Int)
      exact_mod_cast this
    · have hna : 0 < n.natAbs := Int.natAbs_pos.mpr hn
      have hg : 0 < Nat.gcd n.natAbs d.natAbs := Nat.gcd_pos_of_pos_left _ hna
      have hco := Nat.coprime_div_gcd_div_gcd hg
      show Int.gcd (((n.natAbs / Nat.gcd n.natAbs d.natAbs : Nat) : Int) * (n.sign * d.sign))
        ((d.natAbs / Nat.gcd n.natAbs d.natAbs : Nat) : Int) = 1
      have hs : (n.sign * d.sign).natAbs = 1 := by
        rw [Int.natAbs_mul, Int.natAbs_sign_of_nonzero hn, Int.natAbs_sign_of_nonzero hd]
      simp only [Int.gcd, Int.natAbs_mul, Int.natAbs_ofNat, hs, mul_one]
      exact hco
    · show ((n.natAbs / Nat.gcd n.natAbs d.natAbs : Nat) : Int) * (n.sign * d.sign) * d
        = n * ((d.natAbs / Nat.gcd n.natAbs d.natAbs : Nat) : Int)
      obtain ⟨a, ha⟩ := Nat.gcd_dvd_left n.natAbs d.natAbs
      obtain ⟨b, hb⟩ := Nat.gcd_dvd_right n.natAbs d.natAbs
      have hna : 0 < n.natAbs := Int.natAbs_pos.mpr hn
      have hg : 0 < Nat.gcd n.natAbs d.natAbs := Nat.gcd_pos_of_pos_left _ hna
      have e1 : n.natAbs / Nat.gcd n.natAbs d.natAbs = a :=
        Nat.div_eq_of_eq_mul_right hg ha
      have e2 : d.natAbs / Nat.gcd n.natAbs d.natAbs = b :=
        Nat.div_eq_of_eq_mul_right hg hb
      rw [e1, e2]
      have hn' : n = n.sign * ((Nat.gcd n.natAbs d.natAbs : Int) * a) := by
        rw [← Nat.cast_mul, ← ha, Int.sign_mul_natAbs]
      have hd' : d = d.sign * ((Nat.gcd n.natAbs d.natAbs : Int) * b) := by
        rw [← Nat.cast_mul, ← hb, Int.sign_mul_natAbs]
      have hdd : d.sign * d.sign = 1 := by
        rcases lt_or_gt_of_ne hd with h | h
        · rw [Int.sign_eq_neg_one_of_neg h]; norm_num
        · rw [Int.sign_eq_one_of_pos h]; norm_num
      generalize (Nat.gcd n.natAbs d.natAbs : Int) = g at hn' hd'
      generalize n.sign = sn at hn' hdd ⊢
      generalize hsd : d.sign = sd at hn' hd' hdd ⊢
      rw [hn']
      conv_lhs => rw [hd']
      linear_combination ((a : Int) * sn * g * b) * hdd

theorem value_of_cross (f : Fraction) (n d : Int) (hd : d ≠ 0) (hf : 0 < f.denominator)
    (h : f.numerator * d = n * f.denominator) : f.value = (n : ℚ) / (d : ℚ) := by
  unfold Fraction.value
  have hd' : (d : ℚ) ≠ 0 := by exact_mod_cast hd
  have hf' : (f.denominator : ℚ) ≠ 0 := by
    have : f.denominator ≠ 0 := by omega
    exact_mod_cast this
  rw [div_eq_div_iff hf' hd']
  exact_mod_cast h

theorem reduced_unique (f g : Fraction) (hf : f.reduced) (hg : g.reduced)
    (h : f.numerator * g.denominator = g.numerator * f.denominator) : f = g := by
  obtain ⟨hfd, hfg⟩ := hf
  obtain ⟨hgd, hgg⟩ := hg
  have h1 : f.denominator ∣ g.denominator := by
    have : f.denominator ∣ f.numerator * g.denominator := ⟨g.numerator, by rw [h]; ring⟩
    exact Int.dvd_of_dvd_mul_right_of_gcd_one this (by rw [Int.gcd_comm]; exact hfg)
  have h2 : g.denominator ∣ f.denominator := by
    have : g.denominator ∣ g.numerator * f.denominator := ⟨f.numerator, by rw [← h]; ring⟩
    exact Int.dvd_of_dvd_mul_right_of_gcd_one this (by rw [Int.gcd_comm]; exact hgg)
  have hden : f.denominator = g.denominator :=
    Int.dvd_antisymm (le_of_lt hfd) (le_of_lt hgd) h1 h2
  have hnum : f.numerator = g.numerator := by
    rw [hden] at h
    exact Int.eq_of_mul_eq_mul_right (by omega) h
  cases f; cases g
  simp only at hden hnum
  subst hden; subst hnum; rfl

theorem reduced_value_unique (f g : Fraction) (hf : f.reduced) (hg : g.reduced)
    (h : f.value = g.value) : f = g := by
  apply reduced_unique f g hf hg
  unfold Fraction.value at h
  have hf' : (f.denominator : ℚ) ≠ 0 := by
    have : f.denominator ≠ 0 := by have := hf.1; omega
    exact_mod_cast this
  have hg' : (g.denominator : ℚ) ≠ 0 := by
    have : g.denominator ≠ 0 := by have := hg.1; omega
    exact_mod_cast this
  rw [div_eq_div_iff hf' hg'] at h
  exact_mod_cast h

theorem make_value (n d : Int) (hd : d ≠ 0) :
    ∃ f : Fraction, Fraction.make n d = .ok f ∧ f.reduced ∧ f.value = (n : ℚ) / (d : ℚ) := by
  obtain ⟨f, hf, hr, hc⟩ := make_spec n d hd
  exact ⟨f, hf, hr, value_of_cross f n d hd hr.1 hc⟩

theorem den_ne_zero_rat (f : Fraction) (hf : 0 < f.denominator) : (f.denominator : ℚ) ≠ 0 := by
  have : f.denominator ≠ 0 := by omega
  exact_mod_cast this

theorem add_spec (x y : Fraction) (hx : 0 < x.denominator) (hy : 0 < y.denominator) :
    ∃ s : Fraction, Fraction.add x y = .ok s ∧ s.reduced ∧ s.value = x.value + y.value := by
  have hd : x.denominator * y.denominator ≠ 0 := by positivity
  obtain ⟨s, hs, hr, hv⟩ := make_value
    (x.numerator * y.denominator + y.numerator * x.denominator) (x.denominator * y.denominator) hd
  refine ⟨s, hs, hr, ?_⟩
  rw [hv]
  unfold Fraction.value
  have h1 := den_ne_zero_rat x hx
  have h2 := den_ne_zero_rat y hy
  push_cast
  field_simp
  try ring

theorem sub_spec (x y : Fraction) (hx : 0 < x.denominator) (hy : 0 < y.denominator) :
    ∃ s : Fraction, Fraction.sub x y = .ok s ∧ s.reduced ∧ s.value = x.value - y.value := by
  have hd : x.denominator * y.denominator ≠ 0 := by positivity
  obtain ⟨s, hs, hr, hv⟩ := make_value
    (x.numerator * y.denominator - y.numerator * x.denominator) (x.denominator * y.denominator) hd
  refine ⟨s, hs, hr, ?_⟩
  rw [hv]
  unfold Fraction.value
  have h1 := den_ne_zero_rat x hx
  have h2 := den_ne_zero_rat y hy
  push_cast
  field_simp
  try ring

theorem mul_spec (x y : Fraction) (hx : 0 < x.denominator) (hy : 0 < y.denominator) :
    ∃ s : Fraction, Fraction.mul x y = .ok s ∧ s.reduced ∧ s.value = x.value * y.value := by
  have hd : x.denominator * y.denominator ≠ 0 := by positivity
  obtain ⟨s, hs, hr, hv⟩ := make_value
    (x.numerator * y.numerator) (x.denominator * y.denominator) hd
  refine ⟨s, hs, hr, ?_⟩
  rw [hv]
  unfold Fraction.value
  have h1 := den_ne_zero_rat x hx
  have h2 := den_ne_zero_rat y hy
  push_cast
  field_simp
  try ring

theorem div_spec (x y : Fraction) (hx : 0 < x.denominator) (hy : 0 < y.denominator)
    (hy0 : y.numerator ≠ 0) :
    ∃ s : Fraction, Fraction.div x y = .ok s ∧ s.reduced ∧ s.value = x.value / y.value := by
  have hxd : x.denominator ≠ 0 := by omega
  have hd : x.denominator * y.numerator ≠ 0 := mul_ne_zero hxd hy0
  obtain ⟨s, hs, hr, hv⟩ := make_value
    (x.numerator * y.denominator) (x.denominator * y.numerator) hd
  refine ⟨s, hs, hr, ?_⟩
  rw [hv]
  unfold Fraction.value
  have h1 := den_ne_zero_rat x hx
  have h2 := den_ne_zero_rat y hy
  have h3 : (y.numerator : ℚ) ≠ 0 := by exact_mod_cast hy0
  push_cast
  field_simp
  try ring

theorem lambda_pow_closed (base : Lambda) (exponent : Fraction)
    (hn : base.n < 2 ^ 64) (hb : base.b < 2 ^ 64)
    (hp0 : 0 ≤ exponent.numerator) (hp : exponent.numerator < 2 ^ 63)
    (hq0 : 1 ≤ exponent.denominator) (hq : exponent.denominator < 2 ^ 63) :
    Lambda.pow base exponent =
      { n := u64 (base.n ^ (max exponent.numerator.toNat 1) * exponent.denominator.toNat),
        b := u64 (base.b ^ (max exponent.numerator.toNat 1)) } := by
  have hbase : base = { n := u64 (base.n ^ 1), b := u64 (base.b ^ 1) } := by
    cases base with
    | mk n b =>
      simp only [pow_one, u64] at hn hb ⊢
      rw [Nat.mod_eq_of_lt hn, Nat.mod_eq_of_lt hb]
  have hpU : toU64 exponent.numerator = exponent.numerator.toNat := by
    unfold toU64
    rw [Int.emod_eq_of_lt hp0 (by omega)]
  have hqU : toU64 exponent.denominator = exponent.denominator.toNat := by
    unfold toU64
    rw [Int.emod_eq_of_lt (by omega) (by omega)]
  have hmax : 1 + (exponent.numerator.toNat - 1) = max exponent.numerator.toNat 1 := by
    omega
  unfold Lambda.pow
  rw [hpU, hqU]
  have hl : Lambda.powLoop base (exponent.numerator.toNat - 1) base
      = { n := u64 (base.n ^ (max exponent.numerator.toNat 1)),
          b := u64 (base.b ^ (max exponent.numerator.toNat 1)) } := by
    have h := powLoop_value base (exponent.numerator.toNat - 1) 1
    rw [← hbase, hmax] at h
    exact h
  rw [hl]
  simp only [u64_mul_u64_left]

theorem u64_of_lt (x : Nat) (h : x < 2 ^ 64) : u64 x = x := Nat.mod_eq_of_lt h

theorem lambda_add_mono (l l2 r : Lambda) (hle : l.le l2)
    (hn : l2.n * r.n < 2 ^ 64) (hb : l2.b + r.b < 2 ^ 64) :
    (Lambda.add l r).le (Lambda.add l2 r) ∧ (Lambda.add r l).le (Lambda.add r l2) := by
  obtain ⟨h1, h2⟩ := hle
  have e1 : l.n * r.n ≤ l2.n * r.n := Nat.mul_le_mul_right _ h1
  have e2 : r.n * l.n ≤ r.n * l2.n := Nat.mul_le_mul_left _ h1
  have e3 : r.n * l2.n < 2 ^ 64 := by rw [Nat.mul_comm]; exact hn
  have e4 : r.b + l2.b < 2 ^ 64 := by omega
  unfold Lambda.add Lambda.le
  simp only
  rw [u64_of_lt _ hn, u64_of_lt _ hb, u64_of_lt _ e3, u64_of_lt _ e4,
    u64_of_lt _ (lt_of_le_of_lt e1 hn), u64_of_lt _ (lt_of_le_of_lt e2 e3),
    u64_of_lt (l.b + r.b) (by omega), u64_of_lt (r.b + l.b) (by omega)]
  exact ⟨⟨e1, by omega⟩, ⟨e2, by omega⟩⟩

theorem lambda_mul_mono (l l2 r : Lambda) (hle : l.le l2)
    (hn : l2.n * r.n < 2 ^ 64) (hb : l2.b * r.b < 2 ^ 64) :
    (Lambda.mul l r).le (Lambda.mul l2 r) ∧ (Lambda.mul r l).le (Lambda.mul r l2) := by
  obtain ⟨h1, h2⟩ := hle
  have e1 : l.n * r.n ≤ l2.n * r.n := Nat.mul_le_mul_right _ h1
  have e2 : r.n * l.n ≤ r.n * l2.n := Nat.mul_le_mul_left _ h1
  have e3 : r.n * l2.n < 2 ^ 64 := by rw [Nat.mul_comm]; exact hn
  have f1 : l.b * r.b ≤ l2.b * r.b := Nat.mul_le_mul_right _ h2
  have f2 : r.b * l.b ≤ r.b * l2.b := Nat.mul_le_mul_left _ h2
  have f3 : r.b * l2.b < 2 ^ 64 := by rw [Nat.mul_comm]; exact hb
  unfold Lambda.mul Lambda.le
  simp only
  rw [u64_of_lt _ hn, u64_of_lt _ hb, u64_of_lt _ e3, u64_of_lt _ f3,
    u64_of_lt _ (lt_of_le_of_lt e1 hn), u64_of_lt _ (lt_of_le_of_lt e2 e3),
    u64_of_lt _ (lt_of_le_of_lt f1 hb), u64_of_lt _ (lt_of_le_of_lt f2 f3)]
  exact ⟨⟨e1, f1⟩, ⟨e2, f2⟩⟩

theorem lambda_pow_mono (l l2 : Lambda) (e : Fraction) (hle : l.le l2)
    (hp1 : 1 ≤ e.numerator) (hp : e.numerator < 2 ^ 63)
    (hq1 : 1 ≤ e.denominator) (hq : e.denominator < 2 ^ 63)
    (hn : l2.n ^ e.numerator.toNat * e.denominator.toNat < 2 ^ 64)
    (hb : l2.b ^ e.numerator.toNat < 2 ^ 64) :
    (Lambda.pow l e).le (Lambda.pow l2 e) := by
  obtain ⟨h1, h2⟩ := hle
  have hpn : 1 ≤ e.numerator.toNat := by omega
  have hqn : 1 ≤ e.denominator.toNat := by omega
  have hmax : max e.numerator.toNat 1 = e.numerator.toNat := max_eq_left hpn
  have hself : ∀ x : Nat, x ≤ x ^ e.numerator.toNat := fun x =>
    Nat.le_self_pow (by omega) x
  have hl2n : l2.n < 2 ^ 64 :=
    lt_of_le_of_lt (le_trans (hself l2.n) (Nat.le_mul_of_pos_right _ (by omega))) hn
  have hl2b : l2.b < 2 ^ 64 := lt_of_le_of_lt (hself l2.b) hb
  have en : l.n ^ e.numerator.toNat * e.denominator.toNat
      ≤ l2.n ^ e.numerator.toNat * e.denominator.toNat :=
    Nat.mul_le_mul_right _ (Nat.pow_le_pow_left h1 _)
  have eb : l.b ^ e.numerator.toNat ≤ l2.b ^ e.numerator.toNat := Nat.pow_le_pow_left h2 _
  rw [lambda_pow_closed l e (by omega) (by omega) (by omega) hp hq1 hq,
    lambda_pow_closed l2 e hl2n hl2b (by omega) hp hq1 hq]
  unfold Lambda.le
  simp only [hmax]
  rw [u64_of_lt _ hn, u64_of_lt _ hb, u64_of_lt _ (lt_of_le_of_lt en hn),
    u64_of_lt _ (lt_of_le_of_lt eb hb)]
  exact ⟨en, eb⟩

/-! ## Helper lemmas: texts of the tokens and unknown characters -/

theorem scanDigits_split (cs : List Char) :
    (scanDigits cs).1 ++ (scanDigits cs).2 = cs ∧ ∀ ch ∈ (scanDigits cs).1, isdigit ch = true := by
  induction cs with
  | nil => simp [scanDigits]
  | cons c cs ih =>
    unfold scanDigits
    by_cases hd : isdigit c = true
    · rw [if_pos hd]
      refine ⟨by simp [ih.1], ?_⟩
      intro ch hch
      rcases List.mem_cons.mp hch with h | h
      · rw [h]; exact hd
      · exact ih.2 ch h
    · rw [if_neg hd]
      simp

theorem charToken_str (c : Char) : (charToken c).str = String.singleton c := by
  unfold charToken
  simp only
  split_ifs <;> rfl

theorem filter_digits (a rest : List Char) (ha : ∀ ch ∈ a, isdigit ch = true) :
    (a ++ rest).filter (fun c => !isblank c) = a ++ rest.filter (fun c => !isblank c) := by
  rw [List.filter_append]
  congr 1
  rw [List.filter_eq_self]
  intro ch hch
  simp [isblank_of_isdigit ch (ha ch hch)]

theorem tokenLoop_texts (k : Nat) : ∀ cs : List Char, cs.length = k →
    ((tokenLoop cs.length cs).map fun t => t.str.data).flatten
      = cs.filter (fun c => !isblank c) := by
  induction k using Nat.strong_induction_on with
  | _ k ih =>
    intro cs hk
    cases cs with
    | nil => simp [tokenLoop]
    | cons c cs =>
      simp only [List.length_cons] at hk
      rw [List.length_cons]
      by_cases hb : isblank c = true
      · have e : tokenLoop (cs.length + 1) (c :: cs) = tokenLoop cs.length cs := by
          simp [tokenLoop, hb]
        rw [e, ih cs.length (by omega) cs rfl]
        simp [List.filter_cons, hb]
      · by_cases hd : isdigit c = true
        · rw [tokenLoop_digit _ c cs hd]
          have hlen := scanDigits_length_digit c cs hd
          obtain ⟨hsplit, hdig⟩ := scanDigits_split (c :: cs)
          rw [tokenLoop_fuel cs.length _ hlen]
          rw [List.map_cons, List.flatten_cons,
            ih (scanDigits (c :: cs)).2.length (by omega) _ rfl]
          conv_rhs => rw [← hsplit]
          rw [filter_digits _ _ hdig]
          rfl
        · have hb' : isblank c = false := by simpa using hb
          have hd' : isdigit c = false := by simpa using hd
          rw [← List.length_cons c cs, tokenLoop_char c hb' hd' cs, List.map_cons, List.flatten_cons,
            ih cs.length (by omega) cs rfl, charToken_str]
          simp [List.filter_cons, hb', String.singleton]

theorem cString_of_allowed (s : String) (h : ∀ c ∈ s.data, allowedChar c = true) :
    cString s = s.data := by
  unfold cString
  rw [List.takeWhile_eq_self_iff]
  intro c hc
  have := h c hc
  simp only [decide_eq_true_eq, ne_eq]
  intro h0
  subst h0
  revert this
  decide

theorem charToken_mem_tokenLoop (c : Char) (hd : isdigit c = false) (hb : isblank c = false)
    (k : Nat) : ∀ cs : List Char, cs.length = k → c ∈ cs →
    charToken c ∈ tokenLoop cs.length cs := by
  induction k using Nat.strong_induction_on with
  | _ k ih =>
    intro cs hk hc
    cases cs with
    | nil => simp at hc
    | cons x xs =>
      simp only [List.length_cons] at hk
      by_cases hxb : isblank x = true
      · have e : tokenLoop (x :: xs).length (x :: xs) = tokenLoop xs.length xs := by
          simp [tokenLoop, hxb]
        rw [e]
        rcases List.mem_cons.mp hc with h | h
        · subst h; rw [hb] at hxb; cases hxb
        · exact ih xs.length (by omega) xs rfl h
      · by_cases hxd : isdigit x = true
        · rw [List.length_cons, tokenLoop_digit _ x xs hxd]
          have hlen := scanDigits_length_digit x xs hxd
          obtain ⟨hsplit, hdig⟩ := scanDigits_split (x :: xs)
          rw [tokenLoop_fuel xs.length _ hlen]
          apply List.mem_cons_of_mem
          apply ih _ (by omega) _ rfl
          rw [← hsplit] at hc
          rcases List.mem_append.mp hc with h | h
          · have := hdig c h
            rw [hd] at this; cases this
          · exact h
        · have hxb' : isblank x = false := by simpa using hxb
          have hxd' : isdigit x = false := by simpa using hxd
          rw [tokenLoop_char x hxb' hxd' xs]
          rcases List.mem_cons.mp hc with h | h
          · subst h; exact List.mem_cons_self _ _
          · exact List.mem_cons_of_mem _ (ih xs.length (by omega) xs rfl h)

theorem mem_cString (pre post : List Char) (c : Char) (hpre : ∀ x ∈ pre, x ≠ Char.ofNat 0)
    (hc : c ≠ Char.ofNat 0) : c ∈ cString (String.mk (pre ++ c :: post)) := by
  unfold cString
  show c ∈ List.takeWhile (fun c => decide (c ≠ Char.ofNat 0)) (pre ++ c :: post)
  induction pre with
  | nil => simp [List.takeWhile_cons, hc]
  | cons x xs ih =>
    have hx : x ≠ Char.ofNat 0 := hpre x (List.mem_cons_self _ _)
    simp only [List.cons_append, List.takeWhile_cons, hx, ne_eq, not_false_eq_true,
      decide_True, if_true]
    exact List.mem_cons_of_mem _ (ih (fun y hy => hpre y (List.mem_cons_of_mem _ hy)))

theorem shuntLoop_unknown (tokens : List Token) : ∀ (queue stack : List Token),
    (∃ t ∈ tokens, t.type = TokenType.Unknown) →
    (∃ u ∈ tokens, u.type = TokenType.Unknown ∧ shuntLoop tokens queue stack = .tokenError u.str) ∨
    (∃ text, shuntLoop tokens queue stack = .rightParenError text) ∨
    shuntLoop tokens queue stack = .popEmpty := by
  induction tokens with
  | nil => intro queue stack h; obtain ⟨t, ht, _⟩ := h; simp at ht
  | cons token rest ih =>
    intro queue stack h
    have lift : ∀ q s, (∃ t ∈ rest, t.type = TokenType.Unknown) →
        shuntLoop (token :: rest) queue stack = shuntLoop rest q s →
        (∃ u ∈ token :: rest, u.type = TokenType.Unknown ∧
          shuntLoop (token :: rest) queue stack = .tokenError u.str) ∨
        (∃ text, shuntLoop (token :: rest) queue stack = .rightParenError text) ∨
        shuntLoop (token :: rest) queue stack = .popEmpty := by
      intro q s hr e
      rw [e]
      rcases ih q s hr with ⟨u, hu, hut, hres⟩ | h2 | h3
      · exact Or.inl ⟨u, List.mem_cons_of_mem _ hu, hut, hres⟩
      · exact Or.inr (Or.inl h2)
      · exact Or.inr (Or.inr h3)
    cases htype : token.type with
    | Unknown =>
      left
      refine ⟨token, List.mem_cons_self _ _, htype, ?_⟩
      unfold shuntLoop
      simp only [htype]
    | Number =>
      have hr : ∃ t ∈ rest, t.type = TokenType.Unknown := by
        obtain ⟨t, ht, htt⟩ := h
        rcases List.mem_cons.mp ht with e | e
        · subst e; rw [htype] at htt; cases htt
        · exact ⟨t, e, htt⟩
      apply lift (queue ++ [token]) stack hr
      conv_lhs => unfold shuntLoop
      simp only [htype]
    | Operator =>
      have hr : ∃ t ∈ rest, t.type = TokenType.Unknown := by
        obtain ⟨t, ht, htt⟩ := h
        rcases List.mem_cons.mp ht with e | e
        · subst e; rw [htype] at htt; cases htt
        · exact ⟨t, e, htt⟩
      apply lift (popOperators token stack queue).2 (token :: (popOperators token stack queue).1) hr
      conv_lhs => unfold shuntLoop
      simp only [htype]
    | LeftParen =>
      have hr : ∃ t ∈ rest, t.type = TokenType.Unknown := by
        obtain ⟨t, ht, htt⟩ := h
        rcases List.mem_cons.mp ht with e | e
        · subst e; rw [htype] at htt; cases htt
        · exact ⟨t, e, htt⟩
      apply lift queue (token :: stack) hr
      conv_lhs => unfold shuntLoop
      simp only [htype]
    | RightParen =>
      have hr : ∃ t ∈ rest, t.type = TokenType.Unknown := by
        obtain ⟨t, ht, htt⟩ := h
        rcases List.mem_cons.mp ht with e | e
        · subst e; rw [htype] at htt; cases htt
        · exact ⟨t, e, htt⟩
      cases hpop : (popToLeftParen stack queue false).1 with
      | nil =>
        right; right
        unfold shuntLoop
        simp only [htype, hpop]
      | cons lp stack2 =>
        by_cases hcond : (!(popToLeftParen stack queue false).2.2 && stack2.isEmpty) = true
        · right; left
          refine ⟨token.str, ?_⟩
          unfold shuntLoop
          simp only [htype, hpop, hcond, if_true]
        · apply lift (popToLeftParen stack queue false).2.1 stack2 hr
          conv_lhs => unfold shuntLoop
          simp only [htype, hpop, hcond, if_false, Bool.false_eq_true]

/-! ## Helper lemmas: operators without operands -/

theorem passA_append (F : FloatOps) (a b : List Token) : ∀ st : List (Fraction × Lambda),
    passA F (a ++ b) st =
      (match passA F a st with
        | .error e => .error e
        | .ok st2 => passA F b st2) := by
  induction a with
  | nil => intro st; rfl
  | cons t a ih =>
    intro st
    simp only [List.cons_append, passA]
    cases h : stepA F st t with
    | error e => rfl
    | ok st2 => exact ih st2

theorem passB_append {R : Type} (N : Numeric R) (a b : List Token) : ∀ st : List R,
    passB N (a ++ b) st =
      (match passB N a st with
        | .error e => .error e
        | .ok st2 => passB N b st2) := by
  induction a with
  | nil => intro st; rfl
  | cons t a ih =>
    intro st
    simp only [List.cons_append, passB]
    cases h : stepB N st t with
    | error e => rfl
    | ok st2 => exact ih st2

theorem stepA_underflow (F : FloatOps) (st : List (Fraction × Lambda)) (op : Token)
    (hop : op.type = TokenType.Operator) (hlen : st.length < 2) :
    stepA F st op = .error .emptyBack := by
  unfold stepA
  simp only [hop]
  match st, hlen with
  | [], _ => rfl
  | [_], _ => rfl
  | _ :: _ :: _, h => simp at h; omega

theorem stepB_underflow {R : Type} (N : Numeric R) (st : List R) (op : Token)
    (hop : op.type = TokenType.Operator) (hlen : st.length < 2) :
    stepB N st op = .error .emptyBack := by
  unfold stepB
  simp only [hop]
  match st, hlen with
  | [], _ => rfl
  | [_], _ => rfl
  | _ :: _ :: _, h => simp at h; omega

theorem isEqual_of_finalLambda_error {R : Type} (N : Numeric R) (F : FloatOps)
    (val1 val2 : String) (queue : List Token) (e : Failure)
    (hq : (shuntingYard (exprToTokens (val1 ++ "-" ++ val2))).returned = some queue)
    (hl : finalLambda F queue = .error e) : isEqual N F val1 val2 = .error e := by
  unfold isEqual
  simp only [hq, hl]

/-! ## Helper lemmas: the output of the conversion -/

theorem popOperators_split (o1 : Token) (h1 : 0 ≤ o1.precedence) (stack : List Token) :
    ∀ queue : List Token,
    (∀ t ∈ stack, t.type = TokenType.Operator ∨
      (t.type = TokenType.LeftParen ∧ t.precedence < 0)) →
    ∃ popped : List Token,
      (popOperators o1 stack queue).2 = queue ++ popped ∧
      stack = popped ++ (popOperators o1 stack queue).1 ∧
      ∀ t ∈ popped, t.type = TokenType.Operator := by
  induction stack with
  | nil => intro queue _; exact ⟨[], by simp [popOperators]⟩
  | cons o2 stack ih =>
    intro queue hS
    unfold popOperators
    by_cases hp : popsBefore o1 o2 = true
    · rw [if_pos hp]
      have ho2 : o2.type = TokenType.Operator := by
        rcases hS o2 (List.mem_cons_self _ _) with h | ⟨_, h⟩
        · exact h
        · rw [popsBefore_leftParen o1 o2 h1 h] at hp
          cases hp
      obtain ⟨popped, e1, e2, e3⟩ := ih (queue ++ [o2]) (fun t ht => hS t (List.mem_cons_of_mem _ ht))
      refine ⟨o2 :: popped, ?_, ?_, ?_⟩
      · rw [e1]; simp
      · rw [List.cons_append, ← e2]
      · intro t ht
        rcases List.mem_cons.mp ht with h | h
        · rw [h]; exact ho2
        · exact e3 t h
    · rw [if_neg hp]
      exact ⟨[], by simp⟩

theorem popToLeftParen_split (stack : List Token) : ∀ (queue : List Token) (m : Bool),
    (∀ t ∈ stack, t.type = TokenType.Operator ∨
      (t.type = TokenType.LeftParen ∧ t.precedence < 0)) →
    ∃ popped : List Token,
      (popToLeftParen stack queue m).2.1 = queue ++ popped ∧
      stack = popped ++ (popToLeftParen stack queue m).1 ∧
      (∀ t ∈ popped, t.type = TokenType.Operator) ∧
      (∀ lp rest, (popToLeftParen stack queue m).1 = lp :: rest →
        lp.type = TokenType.LeftParen) := by
  induction stack with
  | nil =>
    intro queue m _
    exact ⟨[], by simp [popToLeftParen], by simp [popToLeftParen], by simp,
      by simp [popToLeftParen]⟩
  | cons t stack ih =>
    intro queue m hS
    unfold popToLeftParen
    by_cases ht : t.type = TokenType.LeftParen
    · rw [if_neg (by simpa using ht)]
      refine ⟨[], by simp, by simp, by simp, ?_⟩
      intro lp rest h
      simp only [List.cons.injEq] at h
      rw [← h.1]; exact ht
    · rw [if_pos ht]
      have hto : t.type = TokenType.Operator := by
        rcases hS t (List.mem_cons_self _ _) with h | ⟨h, _⟩
        · exact h
        · exact absurd h ht
      obtain ⟨popped, e1, e2, e3, e4⟩ :=
        ih (queue ++ [t]) true (fun u hu => hS u (List.mem_cons_of_mem _ hu))
      refine ⟨t :: popped, ?_, ?_, ?_, e4⟩
      · rw [e1]; simp
      · rw [List.cons_append, ← e2]
      · intro u hu
        rcases List.mem_cons.mp hu with h | h
        · rw [h]; exact hto
        · exact e3 u h

theorem drain_split (stack : List Token) : ∀ (queue q : List Token),
    drain stack queue = .queue q →
    q = queue ++ stack ∧ ∀ t ∈ stack, t.type ≠ TokenType.LeftParen := by
  induction stack with
  | nil =>
    intro queue q h
    simp only [drain, ShuntResult.queue.injEq] at h
    simp [h]
  | cons t stack ih =>
    intro queue q h
    unfold drain at h
    by_cases ht : t.type = TokenType.LeftParen
    · rw [if_pos ht] at h; cases h
    · rw [if_neg ht] at h
      obtain ⟨e1, e2⟩ := ih _ _ h
      refine ⟨by rw [e1]; simp, ?_⟩
      intro u hu
      rcases List.mem_cons.mp hu with h | h
      · rw [h]; exact ht
      · exact e2 u h

theorem filter_evaluable_operators (l : List Token) (h : ∀ t ∈ l, t.type = TokenType.Operator) :
    l.filter Token.evaluable = l := by
  rw [List.filter_eq_self]
  intro t ht
  simp [Token.evaluable, h t ht]

theorem filter_isNumber_operators (l : List Token) (h : ∀ t ∈ l, t.type = TokenType.Operator) :
    l.filter Token.isNumber = [] := by
  rw [List.filter_eq_nil_iff]
  intro t ht
  simp [Token.isNumber, h t ht]

theorem shuntLoop_output (tokens : List Token) : ∀ (queue stack q : List Token),
    (∀ t ∈ tokens, t.precedenceOk = true) →
    (∀ t ∈ stack, t.type = TokenType.Operator ∨
      (t.type = TokenType.LeftParen ∧ t.precedence < 0)) →
    shuntLoop tokens queue stack = .queue q →
    List.Perm q (queue ++ (stack.filter Token.evaluable ++ tokens.filter Token.evaluable)) ∧
    q.filter Token.isNumber = queue.filter Token.isNumber ++ tokens.filter Token.isNumber := by
  induction tokens with
  | nil =>
    intro queue stack q _ hS h
    unfold shuntLoop at h
    obtain ⟨e1, e2⟩ := drain_split stack queue q h
    have hops : ∀ t ∈ stack, t.type = TokenType.Operator := by
      intro t ht
      rcases hS t ht with h | ⟨h, _⟩
      · exact h
      · exact absurd h (e2 t ht)
    subst e1
    rw [filter_evaluable_operators stack hops, List.filter_append,
      filter_isNumber_operators stack hops]
    simp
  | cons token rest ih =>
    intro queue stack q hT hS h
    have hrest : ∀ t ∈ rest, t.precedenceOk = true := fun t ht => hT t (List.mem_cons_of_mem _ ht)
    have hok := hT token (List.mem_cons_self _ _)
    unfold shuntLoop at h
    cases htype : token.type with
    | Unknown => simp only [htype] at h; cases h
    | Number =>
      simp only [htype] at h
      obtain ⟨p1, p2⟩ := ih _ _ q hrest hS h
      have hev : token.evaluable = true := by simp [Token.evaluable, htype]
      have hnum : token.isNumber = true := by simp [Token.isNumber, htype]
      refine ⟨?_, ?_⟩
      · refine p1.trans ?_
        rw [List.filter_cons_of_pos hev, List.append_assoc]
        apply List.Perm.append_left
        simp only [List.singleton_append]
        exact List.perm_middle.symm
      · rw [p2, List.filter_append, List.filter_cons_of_pos hnum]
        simp [List.filter, hnum]
    | Operator =>
      simp only [htype] at h
      have hprec : 0 ≤ token.precedence := by
        simpa [Token.precedenceOk, htype] using hok
      obtain ⟨popped, e1, e2, e3⟩ := popOperators_split token hprec stack queue hS
      have hS2 : ∀ t ∈ token :: (popOperators token stack queue).1,
          t.type = TokenType.Operator ∨ (t.type = TokenType.LeftParen ∧ t.precedence < 0) := by
        intro t ht
        rcases List.mem_cons.mp ht with h | h
        · rw [h]; exact Or.inl htype
        · exact hS t (by rw [e2]; exact List.mem_append_right _ h)
      obtain ⟨p1, p2⟩ := ih _ _ q hrest hS2 h
      have hev : token.evaluable = true := by simp [Token.evaluable, htype]
      have hnum : token.isNumber = false := by simp [Token.isNumber, htype]
      refine ⟨?_, ?_⟩
      · refine p1.trans ?_
        rw [e1, List.filter_cons_of_pos hev, List.filter_cons_of_pos hev]
        conv_rhs => rw [e2]
        rw [List.filter_append, filter_evaluable_operators popped e3]
        simp only [List.append_assoc]
        apply List.Perm.append_left
        apply List.Perm.append_left
        simp only [List.cons_append]
        exact List.perm_middle.symm
      · rw [p2, e1, List.filter_append, filter_isNumber_operators popped e3]
        simp [List.filter_cons, hnum]
    | LeftParen =>
      simp only [htype] at h
      have hprec : token.precedence < 0 := by
        simpa [Token.precedenceOk, htype] using hok
      have hS2 : ∀ t ∈ token :: stack,
          t.type = TokenType.Operator ∨ (t.type = TokenType.LeftParen ∧ t.precedence < 0) := by
        intro t ht
        rcases List.mem_cons.mp ht with h | h
        · rw [h]; exact Or.inr ⟨htype, hprec⟩
        · exact hS t h
      obtain ⟨p1, p2⟩ := ih _ _ q hrest hS2 h
      have hev : token.evaluable = false := by simp [Token.evaluable, htype]
      have hnum : token.isNumber = false := by simp [Token.isNumber, htype]
      refine ⟨?_, ?_⟩
      · refine p1.trans ?_
        simp [List.filter_cons, hev]
      · rw [p2]
        simp [List.filter_cons, hnum]
    | RightParen =>
      simp only [htype] at h
      obtain ⟨popped, e1, e2, e3, e4⟩ := popToLeftParen_split stack queue false hS
      cases hpop : (popToLeftParen stack queue false).1 with
      | nil => rw [hpop] at h; cases h
      | cons lp stack2 =>
        rw [hpop] at h
        simp only at h
        by_cases hcond : (!(popToLeftParen stack queue false).2.2 && stack2.isEmpty) = true
        · rw [if_pos hcond] at h; cases h
        · rw [if_neg hcond] at h
          have hlp : lp.type = TokenType.LeftParen := e4 lp stack2 hpop
          rw [hpop] at e2
          have hS2 : ∀ t ∈ stack2,
              t.type = TokenType.Operator ∨ (t.type = TokenType.LeftParen ∧ t.precedence < 0) := by
            intro t ht
            exact hS t (by rw [e2]; exact List.mem_append_right _ (List.mem_cons_of_mem _ ht))
          obtain ⟨p1, p2⟩ := ih _ _ q hrest hS2 h
          have hev : token.evaluable = false := by simp [Token.evaluable, htype]
          have hnum : token.isNumber = false := by simp [Token.isNumber, htype]
          have hlpev : lp.evaluable = false := by simp [Token.evaluable, hlp]
          refine ⟨?_, ?_⟩
          · refine p1.trans ?_
            rw [e1]
            conv_rhs => rw [e2]
            rw [List.filter_append, filter_evaluable_operators popped e3]
            simp [List.filter_cons, hev, hlpev]
          · rw [p2, e1, List.filter_append, filter_isNumber_operators popped e3]
            simp [List.filter_cons, hnum]

theorem stoi_error (s : String) (e : Failure) (h : stoi s = .error e) : e = .stoiThrows := by
  unfold stoi at h
  simp only at h
  by_cases h1 : (scanDigits s.data).1 = []
  · rw [if_pos h1] at h; cases h; rfl
  · rw [if_neg h1] at h
    by_cases h2 : decimalValue (scanDigits s.data).1 > 2147483647
    · rw [if_pos h2] at h; cases h; rfl
    · rw [if_neg h2] at h; cases h

theorem make_error (n d : Int) (e : Failure) (h : Fraction.make n d = .error e) :
    e = .denominatorZero := by
  by_cases hd : d = 0
  · unfold Fraction.make at h
    rw [if_pos hd] at h
    cases h; rfl
  · obtain ⟨f, hf, _⟩ := make_spec n d hd
    rw [hf] at h
    cases h

theorem map_error {α β : Type} (x : Outcome α) (f : α → β) (e : Failure)
    (h : x.map f = .error e) : x = .error e := by
  cases x with
  | error e2 => simpa [Except.map] using h
  | ok a => simp [Except.map] at h

theorem fraction_pow_error (F : FloatOps) (x y : Fraction) (e : Failure)
    (h : Fraction.pow F x y = .error e) : e = .denominatorZero := by
  unfold Fraction.pow at h
  by_cases hy : y.denominator = 1
  · rw [if_pos hy] at h
    exact make_error _ _ e h
  · rw [if_neg hy] at h
    cases h

theorem stepA_not_tokenError (F : FloatOps) (st : List (Fraction × Lambda)) (t : Token)
    (ht : t.type = TokenType.Number ∨ t.type = TokenType.Operator) :
    stepA F st t ≠ .error .tokenError := by
  intro hs
  unfold stepA at hs
  rcases ht with ht | ht
  · simp only [ht] at hs
    cases hst : stoi t.str with
    | error e =>
      rw [hst] at hs
      have := stoi_error _ _ hst
      subst this
      cases hs
    | ok k => rw [hst] at hs; cases hs
  · simp only [ht] at hs
    match st, hs with
    | [], hs => cases hs
    | [_], hs => cases hs
    | rhs :: lhs :: rest, hs =>
      simp only at hs
      split_ifs at hs
      · have := fraction_pow_error F _ _ _ (map_error _ _ _ hs); cases this
      · have := make_error _ _ _ (map_error _ _ _ hs); cases this
      · have := make_error _ _ _ (map_error _ _ _ hs); cases this
      · have := make_error _ _ _ (map_error _ _ _ hs); cases this
      · have := make_error _ _ _ (map_error _ _ _ hs); cases this
      · cases hs

theorem passA_no_tokenError (F : FloatOps) (q : List Token)
    (hq : ∀ t ∈ q, t.type = TokenType.Number ∨ t.type = TokenType.Operator) :
    ∀ st : List (Fraction × Lambda), passA F q st ≠ .error .tokenError := by
  induction q with
  | nil => intro st h; cases h
  | cons t q ih =>
    intro st
    have ihq := ih (fun u hu => hq u (List.mem_cons_of_mem _ hu))
    have hstep := stepA_not_tokenError F st t (hq t (List.mem_cons_self _ _))
    unfold passA
    cases hs : stepA F st t with
    | ok st2 => exact ihq st2
    | error e =>
      simp only
      intro he
      injection he with he
      subst he
      exact hstep hs

/-! ## Helper lemmas: Pass A on expression trees -/

/-- C1: the code at the failing input. With exact arithmetic in Pass B,
`isEqual("2", "3")` returns `true` although `2` and `3` are different real
numbers: the difference `2 - 3 = -1` is below `epsilon = 1` and line 453
compares `result < epsilon` without an absolute value. -/
theorem isEqual_two_three_returns_true (F : FloatOps) :
    isEqual realNumeric F "2" "3" = .ok true ∧ (2 : ℝ) ≠ 3 := by
  refine ⟨?_, by norm_num⟩
  unfold isEqual
  simp only [shuntingYard_two_minus_three, ShuntResult.returned, finalLambda_two_minus_three,
    numericResult_two_minus_three, epsilonOf_degree_one]
  simp [realNumeric]
  norm_num

/-- C2: the code at the failing input. For `isEqual("1", "5")` the numeric
result is `r = -4` and the bound is `(N, B) = (1, 6)`, so `epsilon = 1` and
`|r| < epsilon` is false, yet the function returns `true`, because the value it
returns is the signed comparison `r < epsilon`. -/
theorem isEqual_one_five_ignores_sign (F : FloatOps) :
    finalLambda F queueOneMinusFive = .ok { n := 1, b := 6 } ∧
    epsilonOf realNumeric { n := 1, b := 6 } = 1 ∧
    numericResult realNumeric queueOneMinusFive = .ok (-4) ∧
    ¬ (|(-4 : ℝ)| < 1) ∧
    isEqual realNumeric F "1" "5" = .ok true := by
  refine ⟨rfl, epsilonOf_degree_one 6, ?_, ?_, ?_⟩
  · rw [numericResult_one_minus_five]; norm_num
  · norm_num
  · unfold isEqual
    simp only [shuntingYard_one_minus_five, ShuntResult.returned, finalLambda_one_minus_five,
      numericResult_one_minus_five, epsilonOf_degree_one]
    simp [realNumeric]

/-- C3: for the call in `main`, Pass A derives the bound `(N, B) = (16, 22)`
whatever the `double` function `pow` returns, `epsilon` is `1 / 352 ^ 15`, the
exact value of Pass B is the difference of the two sides, whose absolute value is
below `epsilon` (the difference is zero), and `isEqual` returns `true`. -/
theorem isEqual_main_returns_true (F : FloatOps) :
    shuntingYard (exprToTokens (mainLhs ++ "-" ++ mainRhs)) = .queue queueMain ∧
    finalLambda F queueMain = .ok { n := 16, b := 22 } ∧
    epsilonOf realNumeric { n := 16, b := 22 } = 1 / (352 : ℝ) ^ 15 ∧
    numericResult realNumeric queueMain =
      .ok (Real.sqrt 2 + Real.sqrt (5 - 2 * Real.sqrt 6) - Real.sqrt 3) ∧
    |Real.sqrt 2 + Real.sqrt (5 - 2 * Real.sqrt 6) - Real.sqrt 3| < 1 / (352 : ℝ) ^ 15 ∧
    isEqual realNumeric F mainLhs mainRhs = .ok true := by
  have hz : Real.sqrt 2 + Real.sqrt (5 - 2 * Real.sqrt 6) - Real.sqrt 3 = 0 := by
    have h := main_difference_zero
    rw [← Real.sqrt_eq_rpow, ← Real.sqrt_eq_rpow, ← Real.sqrt_eq_rpow, ← Real.sqrt_eq_rpow] at h
    exact h
  refine ⟨shuntingYard_main, finalLambda_main F, epsilonOf_main, ?_, ?_, ?_⟩
  · rw [numericResult_main, main_difference_zero, hz]
  · rw [hz]; norm_num
  · unfold isEqual
    simp only [shuntingYard_main, ShuntResult.returned, finalLambda_main, numericResult_main,
      epsilonOf_main, main_difference_zero]
    simp [realNumeric]

/-- C4: the code at the failing input. The well-formed expression `((3+4))*2`
is not converted: the second `)` finds its `(` alone on the stack and line 319
reports "RightParen error". The example of the claim, `3+4*2`, does convert to
`3 4 2 * +`, which evaluates to `11`. -/
theorem shuntingYard_rejects_nested_group :
    shuntingYard (exprToTokens "((3+4))*2") = .rightParenError ")" ∧
    shuntingYard (exprToTokens "3+4*2") =
      .queue [num "3", num "4", num "2", charToken '*', charToken '+'] ∧
    numericResult realNumeric [num "3", num "4", num "2", charToken '*', charToken '+']
      = .ok 11 := by
  refine ⟨by decide, by decide, ?_⟩
  simp [numericResult, passB, stepB, num, numberToken, charToken, firstChar,
    realNumeric, back, decimalValue]
  norm_num

/-- C5: for all non-empty runs of digits `a`, `b`, `c`, the text `a^b^c` is
tokenized to five tokens and `shuntingYard` returns the postfix sequence
`a b c ^ ^`; for `2^3^2` Pass B evaluates that sequence to `512`, whereas the
left-to-right order `2 3 ^ 2 ^` would give `64`. -/
theorem shuntingYard_power_tower (a b c : List Char)
    (hane : a ≠ []) (ha : ∀ ch ∈ a, isdigit ch = true)
    (hbne : b ≠ []) (hb : ∀ ch ∈ b, isdigit ch = true)
    (hcne : c ≠ []) (hc : ∀ ch ∈ c, isdigit ch = true) :
    shuntingYard (exprToTokens (String.mk (a ++ '^' :: (b ++ '^' :: c))))
      = .queue [numberToken a, numberToken b, numberToken c, charToken '^', charToken '^'] ∧
    shuntingYard (exprToTokens "2^3^2")
      = .queue [num "2", num "3", num "2", charToken '^', charToken '^'] ∧
    numericResult realNumeric [num "2", num "3", num "2", charToken '^', charToken '^']
      = .ok 512 ∧
    numericResult realNumeric [num "2", num "3", charToken '^', num "2", charToken '^']
      = .ok 64 := by
  refine ⟨?_, by decide, ?_, ?_⟩
  · rw [exprToTokens_tower a b c hane ha hbne hb hcne hc]
    exact shuntingYard_tower _ _ _ rfl rfl rfl
  · have h : ((2 : ℝ) ^ ((3 : ℝ) ^ (2 : ℝ))) = 512 := by
      rw [Real.rpow_two]
      have h9 : ((3 : ℝ) ^ 2) = ((9 : ℕ) : ℝ) := by norm_num
      rw [h9, Real.rpow_natCast]
      norm_num
    have e : numericResult realNumeric
        [num "2", num "3", num "2", charToken '^', charToken '^']
        = .ok ((2 : ℝ) ^ ((3 : ℝ) ^ (2 : ℝ))) := by
      simp [numericResult, passB, stepB, num, numberToken, charToken, firstChar,
        realNumeric, back, decimalValue]
    rw [e, h]
  · have h : (((2 : ℝ) ^ (3 : ℝ)) ^ (2 : ℝ)) = 64 := by
      rw [Real.rpow_two]
      have h3 : (3 : ℝ) = ((3 : ℕ) : ℝ) := by norm_num
      rw [h3, Real.rpow_natCast]
      norm_num
    have e : numericResult realNumeric
        [num "2", num "3", charToken '^', num "2", charToken '^']
        = .ok (((2 : ℝ) ^ (3 : ℝ)) ^ (2 : ℝ)) := by
      simp [numericResult, passB, stepB, num, numberToken, charToken, firstChar,
        realNumeric, back, decimalValue]
    rw [e, h]

/-- Witness for C5: the literals `10`, `2` and `3`. -/
theorem shuntingYard_power_tower_witness :
    shuntingYard (exprToTokens "10^2^3")
      = .queue [num "10", num "2", num "3", charToken '^', charToken '^'] :=
  (shuntingYard_power_tower ['1', '0'] ['2'] ['3'] (by decide) (by decide) (by decide)
    (by decide) (by decide) (by decide)).1

/-- C6: the code at the failing input. For `(5)` and for `(2)-2` the `)` is read
while its `(` is on the stack, yet `shuntingYard` reports "RightParen error" and
returns the empty deque; the same group after an operator, `1+(5)`, converts. -/
theorem shuntingYard_rejects_leading_group :
    shuntingYard (exprToTokens "(5)") = .rightParenError ")" ∧
    shuntingYard (exprToTokens "(2)-2") = .rightParenError ")" ∧
    shuntingYard (exprToTokens "1+(5)") = .queue [num "1", num "5", charToken '+'] := by
  decide

/-- C7: the code at the failing input. For `1+2)` no mismatch is reported: the
loop moves `+` to the queue and sets `match`, then `stack.pop_back()` runs on the
empty vector; the same happens for a lone `)`. -/
theorem shuntingYard_unmatched_rightParen :
    shuntingYard (exprToTokens "1+2)") = .popEmpty ∧
    shuntingYard (exprToTokens ")") = .popEmpty ∧
    popToLeftParen [charToken '+'] [num "1", num "2"] false
      = ([], [num "1", num "2", charToken '+'], true) := by
  decide

/-- C8, counterexample: two token sequences with a `LeftParen` that no later
`RightParen` closes, on which no mismatch is reported. An operator built with
the constructor's default precedence `-1` moves the `LeftParen` to the output
and the sequence is returned; and for the tokens of `)(` the first token makes
`stack.pop_back()` run on the empty vector. -/
theorem shuntingYard_unclosed_counterexample :
    shuntingYard [charToken '(', defaultPlus] = .queue [charToken '(', defaultPlus] ∧
    exprToTokens ")(" = [charToken ')', charToken '('] ∧
    shuntingYard (exprToTokens ")(") = .popEmpty := by
  decide

/-- C8, amended: for every token sequence without `Unknown` tokens that follows
the precedence convention of the tokenizer, in which every `RightParen` is read
while a `LeftParen` is open and `d > 0` left parentheses are never closed,
`shuntingYard` reports mismatched parentheses (the end-of-input error of line
340, or the "RightParen error" of line 322) and returns no postfix sequence. -/
theorem shuntingYard_unclosed_leftParen (tokens : List Token) (d : Nat)
    (hT : ∀ t ∈ tokens, t.type ≠ TokenType.Unknown ∧ t.precedenceOk = true)
    (hd : parenDepth tokens 0 = some d) (hpos : 0 < d) :
    shuntingYard tokens = .mismatchedParentheses ∨
      ∃ text, shuntingYard tokens = .rightParenError text :=
  shuntLoop_unclosed tokens [] [] d hT (fun _ h => absurd h (List.not_mem_nil _)) hd hpos

/-- Witness for C8: the tokens of `(1+2`. -/
theorem shuntingYard_unclosed_leftParen_witness :
    (∀ t ∈ exprToTokens "(1+2", t.type ≠ TokenType.Unknown ∧ t.precedenceOk = true) ∧
    parenDepth (exprToTokens "(1+2") 0 = some 1 ∧
    (shuntingYard (exprToTokens "(1+2") = .mismatchedParentheses ∨
      ∃ text, shuntingYard (exprToTokens "(1+2") = .rightParenError text) :=
  ⟨by decide, by decide,
    shuntingYard_unclosed_leftParen (exprToTokens "(1+2") 1 (by decide) (by decide) (by decide)⟩

/-- C9, counterexample: with exponent `2/1` the degree `2` becomes `4`, not
`2 * 1`; with exponent `0/1` the height `5` stays `5`, not `5 ^ 0`; and with
exponent `1 / 2^32` the degree `2^32` wraps to `0`. -/
theorem lambda_pow_counterexample :
    Lambda.pow { n := 2, b := 3 } { numerator := 2, denominator := 1 }
      ≠ { n := 2 * 1, b := 3 ^ 2 } ∧
    Lambda.pow { n := 1, b := 5 } { numerator := 0, denominator := 1 }
      ≠ { n := 1 * 1, b := 5 ^ 0 } ∧
    Lambda.pow { n := 2 ^ 32, b := 2 } { numerator := 1, denominator := 2 ^ 32 }
      ≠ { n := 2 ^ 32 * 2 ^ 32, b := 2 ^ 1 } := by
  decide

/-- C9, amended: for a bound `{n, b}` with 64-bit fields and an exponent `p/q`
with `0 ≤ p`, `1 ≤ q` (both `long long`), the `Lambda` operator `^` returns
`{n ^ p * q, b ^ p}` when `p ≥ 1` and `{n * q, b}` when `p = 0`, each component
reduced modulo `2 ^ 64`. -/
theorem lambda_pow_value (base : Lambda) (exponent : Fraction)
    (hn : base.n < 2 ^ 64) (hb : base.b < 2 ^ 64)
    (hp0 : 0 ≤ exponent.numerator) (hp : exponent.numerator < 2 ^ 63)
    (hq0 : 1 ≤ exponent.denominator) (hq : exponent.denominator < 2 ^ 63) :
    Lambda.pow base exponent =
      { n := u64 (base.n ^ (max exponent.numerator.toNat 1) * exponent.denominator.toNat),
        b := u64 (base.b ^ (max exponent.numerator.toNat 1)) } :=
  lambda_pow_closed base exponent hn hb hp0 hp hq0 hq

/-- Witness for C9: the bound `{2, 3}` raised to `3/2` is `{2^3 * 2, 3^3}`. -/
theorem lambda_pow_value_witness :
    Lambda.pow { n := 2, b := 3 } { numerator := 3, denominator := 2 } = { n := 16, b := 27 } :=
  (lambda_pow_value { n := 2, b := 3 } { numerator := 3, denominator := 2 }
    (by decide) (by decide) (by decide) (by decide) (by decide) (by decide)).trans (by decide)

/-- C10, counterexample: the degree `2^32 * 2^32` of a sum and the height
`2^32 * 2^32` of a product do not fit the 64-bit fields and wrap to `0`. -/
theorem lambda_arith_counterexample :
    Lambda.add { n := 2 ^ 32, b := 1 } { n := 2 ^ 32, b := 1 }
      ≠ { n := 2 ^ 32 * 2 ^ 32, b := 1 + 1 } ∧
    Lambda.mul { n := 1, b := 2 ^ 32 } { n := 1, b := 2 ^ 32 }
      ≠ { n := 1 * 1, b := 2 ^ 32 * 2 ^ 32 } := by
  decide

/-- C10, amended: for all bounds `l` and `r`, `l + r` and `l - r` are both
`{n_l * n_r, b_l + b_r}` and `l * r` and `l / r` are both `{n_l * n_r, b_l * b_r}`,
each component reduced modulo `2 ^ 64`; subtraction is the addition rule and
division the multiplication rule. -/
theorem lambda_arith_rules (l r : Lambda) :
    Lambda.add l r = { n := (l.n * r.n) % 2 ^ 64, b := (l.b + r.b) % 2 ^ 64 } ∧
    Lambda.sub l r = Lambda.add l r ∧
    Lambda.mul l r = { n := (l.n * r.n) % 2 ^ 64, b := (l.b * r.b) % 2 ^ 64 } ∧
    Lambda.div l r = Lambda.mul l r :=
  ⟨rfl, rfl, rfl, rfl⟩

/-- C15: with exact integer fields, for all fractions `x` and `y` in lowest
terms with positive denominators, `x + y`, `x - y` and `x * y` return the
fraction in lowest terms with positive denominator whose value is the exact sum,
difference and product; when `y` is not zero so does `x / y` for the quotient,
and `x / y` is `x` multiplied by the reciprocal `Fraction(y.denominator,
y.numerator)` of `y`. -/
theorem fraction_arithmetic_exact (x y : Fraction) (hx : x.reduced) (hy : y.reduced) :
    (∃ s, Fraction.add x y = .ok s ∧ s.reduced ∧ s.value = x.value + y.value) ∧
    (∃ s, Fraction.sub x y = .ok s ∧ s.reduced ∧ s.value = x.value - y.value) ∧
    (∃ s, Fraction.mul x y = .ok s ∧ s.reduced ∧ s.value = x.value * y.value) ∧
    (y.numerator ≠ 0 →
      ∃ q r, Fraction.div x y = .ok q ∧ q.reduced ∧ q.value = x.value / y.value ∧
        Fraction.make y.denominator y.numerator = .ok r ∧ r.value = (y.value)⁻¹ ∧
        Fraction.mul x r = .ok q) := by
  refine ⟨add_spec x y hx.1 hy.1, sub_spec x y hx.1 hy.1, mul_spec x y hx.1 hy.1, ?_⟩
  intro hy0
  obtain ⟨q, hq, hqr, hqv⟩ := div_spec x y hx.1 hy.1 hy0
  obtain ⟨r, hr, hrr, hrv⟩ := make_value y.denominator y.numerator hy0
  obtain ⟨m, hm, hmr, hmv⟩ := mul_spec x r hx.1 hrr.1
  have hrv' : r.value = (y.value)⁻¹ := by
    rw [hrv]
    unfold Fraction.value
    rw [inv_div]
  have hqm : m = q := by
    apply reduced_value_unique m q hmr hqr
    rw [hmv, hqv, hrv', div_eq_mul_inv]
  rw [hqm] at hm
  exact ⟨q, r, hq, hqr, hqv, hr, hrv', hm⟩

/-- Witness for C15: `x = 1/2` and `y = -3/4`. -/
theorem fraction_arithmetic_exact_witness :
    Fraction.add { numerator := 1, denominator := 2 } { numerator := -3, denominator := 4 }
      = .ok { numerator := -1, denominator := 4 } ∧
    Fraction.div { numerator := 1, denominator := 2 } { numerator := -3, denominator := 4 }
      = .ok { numerator := -2, denominator := 3 } ∧
    ∃ q r, Fraction.div { numerator := 1, denominator := 2 } { numerator := -3, denominator := 4 }
        = .ok q ∧ q.reduced ∧
      q.value = Fraction.value { numerator := 1, denominator := 2 }
        / Fraction.value { numerator := -3, denominator := 4 } ∧
      Fraction.make 4 (-3) = .ok r ∧
      r.value = (Fraction.value { numerator := -3, denominator := 4 })⁻¹ ∧
      Fraction.mul { numerator := 1, denominator := 2 } r = .ok q :=
  ⟨by rfl, by rfl,
    (fraction_arithmetic_exact { numerator := 1, denominator := 2 }
      { numerator := -3, denominator := 4 } ⟨by decide, by decide⟩ ⟨by decide, by decide⟩).2.2.2
      (by decide)⟩

/-- C11, counterexample: raising the degree of the left operand from `1` to
`2^63` lowers the degree of `l + r` and of `l * r` from `2` to `0`, and raising
the height of the base from `1` to `2^32` lowers the height of `base ^ (2/1)`
from `1` to `0`: the 64-bit products wrap. -/
theorem lambda_monotone_counterexample :
    Lambda.le { n := 1, b := 1 } { n := 2 ^ 63, b := 1 } ∧
    ¬ Lambda.le (Lambda.add { n := 1, b := 1 } { n := 2, b := 1 })
        (Lambda.add { n := 2 ^ 63, b := 1 } { n := 2, b := 1 }) ∧
    ¬ Lambda.le (Lambda.mul { n := 1, b := 1 } { n := 2, b := 1 })
        (Lambda.mul { n := 2 ^ 63, b := 1 } { n := 2, b := 1 }) ∧
    Lambda.le { n := 1, b := 1 } { n := 1, b := 2 ^ 32 } ∧
    ¬ Lambda.le (Lambda.pow { n := 1, b := 1 } { numerator := 2, denominator := 1 })
        (Lambda.pow { n := 1, b := 2 ^ 32 } { numerator := 2, denominator := 1 }) := by
  unfold Lambda.le
  decide

/-- C11, amended: when the bound `l` is raised componentwise to `l2` and no
product, sum or power formed from `l2` exceeds `2^64 - 1`, neither component of
`l + r`, `r + l`, `l * r`, `r * l` decreases, nor of `l ^ (p/q)` for a fixed
exponent with `p ≥ 1` and `q ≥ 1`. -/
theorem lambda_monotone (l l2 r : Lambda) (e : Fraction) (hle : l.le l2)
    (hn : l2.n * r.n < 2 ^ 64) (hsum : l2.b + r.b < 2 ^ 64) (hprod : l2.b * r.b < 2 ^ 64)
    (hp1 : 1 ≤ e.numerator) (hp : e.numerator < 2 ^ 63)
    (hq1 : 1 ≤ e.denominator) (hq : e.denominator < 2 ^ 63)
    (hpn : l2.n ^ e.numerator.toNat * e.denominator.toNat < 2 ^ 64)
    (hpb : l2.b ^ e.numerator.toNat < 2 ^ 64) :
    (Lambda.add l r).le (Lambda.add l2 r) ∧ (Lambda.add r l).le (Lambda.add r l2) ∧
    (Lambda.mul l r).le (Lambda.mul l2 r) ∧ (Lambda.mul r l).le (Lambda.mul r l2) ∧
    (Lambda.pow l e).le (Lambda.pow l2 e) :=
  ⟨(lambda_add_mono l l2 r hle hn hsum).1, (lambda_add_mono l l2 r hle hn hsum).2,
    (lambda_mul_mono l l2 r hle hn hprod).1, (lambda_mul_mono l l2 r hle hn hprod).2,
    lambda_pow_mono l l2 e hle hp1 hp hq1 hq hpn hpb⟩

/-- Witness for C11: `l = {2, 3}` raised to `l2 = {4, 5}`, with `r = {2, 7}` and
the exponent `3/2`. -/
theorem lambda_monotone_witness :
    Lambda.le (Lambda.add { n := 2, b := 3 } { n := 2, b := 7 })
      (Lambda.add { n := 4, b := 5 } { n := 2, b := 7 }) ∧
    Lambda.le (Lambda.pow { n := 2, b := 3 } { numerator := 3, denominator := 2 })
      (Lambda.pow { n := 4, b := 5 } { numerator := 3, denominator := 2 }) :=
  have h := lambda_monotone { n := 2, b := 3 } { n := 4, b := 5 } { n := 2, b := 7 }
    { numerator := 3, denominator := 2 } ⟨by decide, by decide⟩ (by decide) (by decide)
    (by decide) (by decide) (by decide) (by decide) (by decide) (by decide) (by decide)
  ⟨h.1, h.2.2.2.2⟩

/-- C16: for every input string composed only of decimal digits, the characters
`( ) ^ * / + -` and blanks, the texts of the tokens returned by `exprToTokens`,
concatenated in order, are the input with its blanks removed. -/
theorem exprToTokens_texts (s : String) (h : ∀ c ∈ s.data, allowedChar c = true) :
    tokenTexts (exprToTokens s) = String.mk (s.data.filter fun c => !isblank c) := by
  unfold tokenTexts exprToTokens
  rw [cString_of_allowed s h, String.join_eq, List.map_map]
  congr 1
  exact tokenLoop_texts s.data.length s.data rfl

/-- Witness for C16: the text `12 + (3*\t4)` with a space and a tab. -/
theorem exprToTokens_texts_witness :
    tokenTexts (exprToTokens "12 +\t(3*4)") = "12+(3*4)" :=
  (exprToTokens_texts "12 +\t(3*4)" (by decide)).trans (by decide)

/-- C17, counterexample: a character behind a NUL character gets no token at
all, because the scan stops at the first NUL; and a token sequence with an
`Unknown` token does not reach the "error:" report when the tokens before it
stop the conversion first, here with "RightParen error" for `(5)#` and with
`stack.pop_back()` on the empty vector for `)#`. -/
theorem unknown_token_counterexample :
    exprToTokens (String.mk [Char.ofNat 0, '#']) = [] ∧
    (charToken '#').type = TokenType.Unknown ∧
    charToken '#' ∈ exprToTokens "(5)#" ∧
    shuntingYard (exprToTokens "(5)#") = .rightParenError ")" ∧
    shuntingYard (exprToTokens ")#") = .popEmpty := by
  decide

/-- C17, amended: a character `c` that is not a digit, a blank, a parenthesis
or an operator character, and that stands before any NUL character of the
string, gets a token of kind `Unknown` whose text is `c`; and `shuntingYard`
applied to a token sequence that contains an `Unknown` token returns no postfix
sequence: it reports "error:" with the text of an `Unknown` token, unless the
tokens before it end the conversion with "RightParen error" or with a pop of
the empty stack. -/
theorem unknown_token_rejected (pre post : List Char) (c : Char) (tokens : List Token)
    (hpre : ∀ x ∈ pre, x ≠ Char.ofNat 0) (hnul : c ≠ Char.ofNat 0)
    (hc : allowedChar c = false)
    (hu : ∃ t ∈ tokens, t.type = TokenType.Unknown) :
    (charToken c ∈ exprToTokens (String.mk (pre ++ c :: post)) ∧
      (charToken c).type = TokenType.Unknown ∧ (charToken c).str = String.singleton c) ∧
    ((∃ u ∈ tokens, u.type = TokenType.Unknown ∧ shuntingYard tokens = .tokenError u.str) ∨
      (∃ text, shuntingYard tokens = .rightParenError text) ∨
      shuntingYard tokens = .popEmpty) := by
  have hparts : (((((((isdigit c = false ∧ isblank c = false) ∧ ¬ c = '(') ∧ ¬ c = ')')
      ∧ ¬ c = '^') ∧ ¬ c = '*') ∧ ¬ c = '/') ∧ ¬ c = '+') ∧ ¬ c = '-' := by
    simpa [allowedChar, not_or] using hc
  obtain ⟨⟨⟨⟨⟨⟨⟨⟨hd, hb⟩, h1⟩, h2⟩, h3⟩, h4⟩, h5⟩, h6⟩, h7⟩ := hparts
  refine ⟨⟨?_, ?_, charToken_str c⟩, shuntLoop_unknown tokens [] [] hu⟩
  · unfold exprToTokens
    exact charToken_mem_tokenLoop c hd hb _ _ rfl (mem_cString pre post c hpre hnul)
  · simp [charToken, h1, h2, h3, h4, h5, h6, h7]

/-- Witness for C17: the character `#` in `1+#2`, and the tokens of `1+#2`. -/
theorem unknown_token_rejected_witness :
    charToken '#' ∈ exprToTokens "1+#2" ∧
    shuntingYard (exprToTokens "1+#2") = .tokenError "#" :=
  have h := unknown_token_rejected ['1', '+'] ['2'] '#' (exprToTokens "1+#2")
    (by decide) (by decide) (by decide) (by decide)
  ⟨h.1.1, by decide⟩

/-- C18, counterexample: `isEqual("2+", "3")` evaluates the postfix sequence
`2 + 3 -`; at `+` one operand is on the stack, and the run ends in
`stack.back()` on an empty vector (line 372), which is none of the failures the
code reports and has no defined result. -/
theorem operand_underflow_counterexample :
    shuntingYard (exprToTokens ("2+" ++ "-" ++ "3"))
      = .queue [num "2", charToken '+', num "3", charToken '-'] ∧
    passA idealFloat [num "2"] [] = .ok [(Fraction.ofInt 2, Lambda.ofInt 2)] ∧
    passA idealFloat [num "2", charToken '+', num "3", charToken '-'] [] = .error .emptyBack ∧
    isEqual realNumeric idealFloat "2+" "3" = .error .emptyBack := by
  refine ⟨by decide, by rfl, by rfl, ?_⟩
  exact isEqual_of_finalLambda_error realNumeric idealFloat "2+" "3"
    [num "2", charToken '+', num "3", charToken '-'] .emptyBack (by decide) (by rfl)

/-- C18, amended: for every postfix sequence in which an operator token is
reached while fewer than two operands are on the evaluation stack, Pass A (and,
on its own stack, Pass B) executes `back()` on an empty vector: the code makes
no check of the operand count, reports no failure, and the run of `isEqual` on
such a sequence has no defined result. -/
theorem operand_underflow {R : Type} (N : Numeric R) (F : FloatOps)
    (pre post : List Token) (op : Token)
    (stack : List (Fraction × Lambda)) (calcStack : List R)
    (hop : op.type = TokenType.Operator)
    (hA : passA F pre [] = .ok stack) (hlenA : stack.length < 2)
    (hB : passB N pre [] = .ok calcStack) (hlenB : calcStack.length < 2) :
    passA F (pre ++ op :: post) [] = .error .emptyBack ∧
    passB N (pre ++ op :: post) [] = .error .emptyBack ∧
    ∀ val1 val2 : String,
      (shuntingYard (exprToTokens (val1 ++ "-" ++ val2))).returned = some (pre ++ op :: post) →
      isEqual N F val1 val2 = .error .emptyBack := by
  have h1 : passA F (pre ++ op :: post) [] = .error .emptyBack := by
    rw [passA_append, hA]
    simp only [passA, stepA_underflow F stack op hop hlenA]
  have h2 : passB N (pre ++ op :: post) [] = .error .emptyBack := by
    rw [passB_append, hB]
    simp only [passB, stepB_underflow N calcStack op hop hlenB]
  refine ⟨h1, h2, ?_⟩
  intro val1 val2 hq
  apply isEqual_of_finalLambda_error N F val1 val2 _ _ hq
  unfold finalLambda
  rw [h1]

/-- Witness for C18: the postfix sequence `2 + 3 -` of `isEqual("2+", "3")`. -/
theorem operand_underflow_witness :
    passA idealFloat ([num "2"] ++ charToken '+' :: [num "3", charToken '-']) []
      = .error .emptyBack ∧
    isEqual realNumeric idealFloat "2+" "3" = .error .emptyBack :=
  have h := operand_underflow realNumeric idealFloat [num "2"] [num "3", charToken '-']
    (charToken '+') [(Fraction.ofInt 2, Lambda.ofInt 2)] [(2 : ℝ)]
    (by decide) (by rfl) (by decide)
    (by simp [passB, stepB, num, numberToken, realNumeric, decimalValue]) (by decide)
  ⟨h.1, h.2.2 "2+" "3" (by decide)⟩

/-- C19, counterexample: with an operator token built with the constructor's
default precedence `-1`, the conversion succeeds and its output contains the
`LeftParen`, on which Pass A stops with "Token error". -/
theorem shuntingYard_output_counterexample :
    shuntingYard [charToken '(', num "1", defaultPlus, num "2"]
      = .queue [num "1", charToken '(', num "2", defaultPlus] ∧
    (charToken '(').type = TokenType.LeftParen ∧
    passA idealFloat [num "1", charToken '(', num "2", defaultPlus] [] = .error .tokenError := by
  refine ⟨by decide, by decide, by rfl⟩

/-- C19, amended: for every token sequence that follows the precedence
convention of the tokenizer and on which `shuntingYard` succeeds, the output
holds only `Number` and `Operator` tokens, it is a permutation of the `Number`
and `Operator` tokens of the input, its `Number` tokens come in the order of
the input, and Pass A never reaches its "Token error" branch on it. -/
theorem shuntingYard_output (F : FloatOps) (tokens q : List Token)
    (hT : ∀ t ∈ tokens, t.precedenceOk = true)
    (h : shuntingYard tokens = .queue q) :
    (∀ t ∈ q, t.type = TokenType.Number ∨ t.type = TokenType.Operator) ∧
    List.Perm q (tokens.filter Token.evaluable) ∧
    q.filter Token.isNumber = tokens.filter Token.isNumber ∧
    ∀ stack : List (Fraction × Lambda), passA F q stack ≠ .error .tokenError := by
  obtain ⟨p1, p2⟩ := shuntLoop_output tokens [] [] q hT
    (fun _ ht => absurd ht (List.not_mem_nil _)) h
  simp only [List.filter_nil, List.nil_append] at p1 p2
  have hq : ∀ t ∈ q, t.type = TokenType.Number ∨ t.type = TokenType.Operator := by
    intro t ht
    have hmem := (List.mem_filter.mp (p1.subset ht)).2
    simpa [Token.evaluable] using hmem
  exact ⟨hq, p1, p2, passA_no_tokenError F q hq⟩

/-- Witness for C19: the tokens of `(1+2)*3` and their postfix form
`1 2 + 3 *`. -/
theorem shuntingYard_output_witness :
    shuntingYard (exprToTokens "(1+2)*3")
      = .queue [num "1", num "2", charToken '+', num "3", charToken '*'] ∧
    List.Perm [num "1", num "2", charToken '+', num "3", charToken '*']
      ((exprToTokens "(1+2)*3").filter Token.evaluable) ∧
    [num "1", num "2", charToken '+', num "3", charToken '*'].filter Token.isNumber
      = (exprToTokens "(1+2)*3").filter Token.isNumber :=
  have h := shuntingYard_output idealFloat (exprToTokens "(1+2)*3")
    [num "1", num "2", charToken '+', num "3", charToken '*'] (by decide) (by decide)
  ⟨by decide, h.2.1, h.2.2.1⟩

/-- C12: the code at the failing input. For `2^(0-1)` the exponent is the
integer `-1`; with `static_cast<long long>(pow(2, -1)) = 0` and
`static_cast<long long>(pow(1, -1)) = 1` Pass A computes the fraction `0/1`,
while the exact value evaluated by Pass B is `1/2`. -/
theorem passA_negative_exponent (F : FloatOps)
    (h2 : F.powInt 2 (-1) = 0) (h1 : F.powInt 1 (-1) = 1) :
    shuntingYard (exprToTokens "2^(0-1)") = .queue queueNegativeExponent ∧
    (∃ lam, passA F queueNegativeExponent [] = .ok [({ numerator := 0, denominator := 1 }, lam)]) ∧
    numericResult realNumeric queueNegativeExponent = .ok (1 / 2) ∧
    Fraction.value { numerator := 0, denominator := 1 } ≠ 1 / 2 := by
  refine ⟨by decide, ⟨Lambda.pow { n := 1, b := 2 } { numerator := -1, denominator := 1 }, ?_⟩,
    ?_, ?_⟩
  · have hsub : Fraction.make (-1) 1 = .ok { numerator := -1, denominator := 1 } := make_one (-1)
    have hpow : Fraction.make 0 1 = .ok { numerator := 0, denominator := 1 } := make_one 0
    simp [queueNegativeExponent, passA, stepA, num, numberToken, charToken, firstChar,
      stoi_digit1, stoi_digit2, show stoi "0" = .ok 0 from rfl,
      Fraction.pow, Fraction.sub, Fraction.ofInt, Lambda.ofInt, hsub, hpow, h1, h2,
      Lambda.sub, Lambda.add, u64, Except.map]
  · have e : numericResult realNumeric queueNegativeExponent
        = .ok ((2 : ℝ) ^ ((0 : ℝ) - 1)) := by
      simp [queueNegativeExponent, numericResult, passB, stepB, num, numberToken, charToken,
        firstChar, realNumeric, back, decimalValue]
    rw [e]
    congr 1
    rw [zero_sub, Real.rpow_neg_one]
    norm_num
  · unfold Fraction.value
    norm_num

/-- Witness for C12: the exact `double` arithmetic `idealFloat`. -/
theorem passA_negative_exponent_witness :
    ∃ lam, passA idealFloat queueNegativeExponent []
      = .ok [({ numerator := 0, denominator := 1 }, lam)] :=
  (passA_negative_exponent idealFloat (by decide) (by decide)).2.1

end CloseEnough
